import Mathlib

/-!
# Verification of the `ssv` small string vector (`src/ssv.hpp`)

This file gives a shallow embedding of the `ssv<Bufsize, Index>` container
and proves / refutes the frozen claims about it.

Modelling conventions:

* Machine integers are `Nat` with explicit `% 2 ^ 64` (`w64`) where the C++
  `uint64_t` / `size_t` arithmetic can wrap.  The packed length bitmap
  (`Index lengths : bitmask_size` bits) is a plain `Nat` manipulated with
  the same shift/and/or expressions as the source.
* The heap block (`heapvec`) is an over-allocated buffer holding a payload
  region growing upward and a reverse-indexed `u64` offset array growing
  downward.  The model keeps the *live* view of the block: the list of
  offsets written and still in range (`offsets`), and the payload bytes up
  to `fullsize()` (`payload`).  `nstrings--` (pop) truncates the view;
  the real code leaves stale bytes behind which are overwritten by the
  next append, so the view is observationally equivalent for all reads
  the code performs in bounds.  A read outside the live view (a stale or
  out-of-block offset read) has no modelled value: operations performing
  one return `.ub` / `none`.
* `calloc` success is an oracle parameter `allocOk`.  The bytes the heap
  pointer occupies inside the inline buffer after a spill transition are
  unknowable at this level; they enter as an arbitrary parameter `junk`.
* Undefined behaviour of the C++ (negative shift, out-of-bounds access,
  `size_t` wrap feeding an undersized allocation that is then overrun)
  yields `.ub` / `none`: such a call has no defined successor state.
-/

set_option maxRecDepth 100000

namespace SSV

/-! ## Small numeric helpers -/

/-- Truncation to 64 bits, the behaviour of `uint64_t` / `size_t` arithmetic. -/
def w64 (n : Nat) : Nat := n % 2 ^ 64

/-- `uint64_t` value of a possibly-negative integer expression. -/
def u64ofInt (i : Int) : Nat := (i % (2 ^ 64 : Int)).toNat

/-- `(x + 7) / 8 * 8`: round up to a multiple of 8, as `push_back` does
for `spaceneeded`. -/
def align8 (x : Nat) : Nat := (x + 7) / 8 * 8

theorem w64_eq_of_lt {n : Nat} (h : n < 2 ^ 64) : w64 n = n := Nat.mod_eq_of_lt h

theorem u64ofInt_sub_eq {a b : Nat} (h : b ≤ a) (h2 : a - b < 2 ^ 64) :
    u64ofInt ((a : Int) - (b : Int)) = a - b := by
  unfold u64ofInt
  have e : (a : Int) - (b : Int) = ((a - b : Nat) : Int) := by omega
  rw [e, Int.emod_eq_of_lt (Int.natCast_nonneg _) (by exact_mod_cast h2)]
  simp

theorem u64ofInt_sub_wrap {a b : Nat} (h1 : a < b) (h2 : b ≤ a + 2 ^ 64) :
    u64ofInt ((a : Int) - (b : Int)) = 2 ^ 64 + a - b := by
  unfold u64ofInt
  omega

theorem u64ofInt_zero : u64ofInt 0 = 0 := rfl

theorem align8_ge (x : Nat) : x ≤ align8 x := by
  unfold align8; omega

theorem align8_mod (x : Nat) : align8 x % 8 = 0 := by
  unfold align8; omega

theorem align8_lt (x : Nat) (h : x ≤ 2 ^ 64 - 8) : align8 x < 2 ^ 64 := by
  unfold align8; omega

/-! ## Bit surgery

The packed bitmap is carved into `bits`-wide digits.  The source updates it
with masked and/or/shift expressions; the lemmas here convert those
expressions into digit replacement in base `2 ^ bits`. -/

/-- Workhorse: bits of `a + 2 ^ k * b` split at position `k` when `a < 2 ^ k`. -/
theorem testBit_addMul {a : Nat} {k : Nat} (ha : a < 2 ^ k) (b i : Nat) :
    (a + 2 ^ k * b).testBit i =
      if i < k then a.testBit i else b.testBit (i - k) := by
  rcases Nat.lt_or_ge i k with hik | hik
  · simp only [hik, if_true]
    rw [Nat.testBit_to_div_mod, Nat.testBit_to_div_mod]
    have hdvd : 2 ^ k * b = 2 ^ (k - i) * b * 2 ^ i := by
      rw [Nat.mul_comm _ (2 ^ i), ← Nat.mul_assoc, ← Nat.pow_add]
      congr 2
      omega
    have h2 : (a + 2 ^ k * b) / 2 ^ i = a / 2 ^ i + 2 ^ (k - i) * b := by
      rw [hdvd, Nat.add_mul_div_right _ _ (Nat.two_pow_pos i)]
    have h3 : 2 ^ (k - i) * b % 2 = 0 := by
      have hne : k - i ≠ 0 := by omega
      obtain ⟨m, hm⟩ := Nat.exists_eq_succ_of_ne_zero hne
      rw [hm, Nat.pow_succ, Nat.mul_comm (2 ^ m) 2, Nat.mul_assoc]
      exact Nat.mul_mod_right 2 _
    have h4 : (a / 2 ^ i + 2 ^ (k - i) * b) % 2 = a / 2 ^ i % 2 := by omega
    rw [h2, h4]
  · simp only [Nat.not_lt_of_ge hik, if_false]
    rw [Nat.testBit_to_div_mod, Nat.testBit_to_div_mod]
    have h2 : (a + 2 ^ k * b) / 2 ^ i = b / 2 ^ (i - k) := by
      have hsplit : (2 : Nat) ^ i = 2 ^ k * 2 ^ (i - k) := by
        rw [← Nat.pow_add]; congr 1; omega
      rw [hsplit, ← Nat.div_div_eq_div_mul]
      have hq : (a + 2 ^ k * b) / 2 ^ k = b := by
        rw [Nat.add_mul_div_left _ _ (Nat.two_pow_pos k), Nat.div_eq_of_lt ha,
          Nat.zero_add]
      rw [hq]
    rw [h2]

theorem testBit_mul_pow {b k i : Nat} :
    (2 ^ k * b).testBit i = if i < k then false else b.testBit (i - k) := by
  have h := testBit_addMul (a := 0) (k := k) (Nat.two_pow_pos k) b i
  rw [Nat.zero_add] at h
  rw [h]
  rcases Nat.lt_or_ge i k with h1 | h1 <;> simp [h1, Nat.not_lt_of_ge, Nat.zero_testBit]

/-- Bits of a quotient by a power of two. -/
theorem testBit_div_pow {x k i : Nat} : (x / 2 ^ k).testBit i = x.testBit (k + i) := by
  rw [Nat.testBit_to_div_mod, Nat.testBit_to_div_mod, Nat.div_div_eq_div_mul, ← Nat.pow_add]

theorem testBit_false_of_lt {x n i : Nat} (hx : x < 2 ^ n) (h : n ≤ i) :
    x.testBit i = false :=
  Nat.testBit_lt_two_pow (Nat.lt_of_lt_of_le hx (Nat.pow_le_pow_right (by omega) h))

/-- The complement mask `2 ^ 64 - 1 - ((2 ^ b - 1) <<< k)` (the value of
`~(mask << shift)` on `uint64_t`) as a sum of two aligned all-ones blocks. -/
theorem negMask_split {b k : Nat} (h : k + b ≤ 64) :
    2 ^ 64 - 1 - ((2 ^ b - 1) <<< k) =
      (2 ^ k - 1) + 2 ^ (k + b) * (2 ^ (64 - k - b) - 1) := by
  rw [Nat.shiftLeft_eq]
  have e1 : (2 : Nat) ^ 64 = 2 ^ (k + b) * 2 ^ (64 - k - b) := by
    rw [← Nat.pow_add]; congr 1; omega
  have e2 : (2 : Nat) ^ (k + b) = 2 ^ b * 2 ^ k := by
    rw [← Nat.pow_add]; congr 1; omega
  have p3 : (1 : Nat) ≤ 2 ^ (64 - k - b) := Nat.one_le_two_pow
  have e3 : (2 ^ b - 1) * 2 ^ k = 2 ^ (k + b) - 2 ^ k := by
    rw [Nat.sub_mul, Nat.one_mul, e2]
  have e4 : 2 ^ (k + b) * (2 ^ (64 - k - b) - 1) = 2 ^ 64 - 2 ^ (k + b) := by
    rcases Nat.exists_eq_add_of_le p3 with ⟨c, hc⟩
    have hc' : 2 ^ (64 - k - b) - 1 = c := by omega
    rw [hc', e1, hc, Nat.mul_add, Nat.mul_one, Nat.add_sub_cancel_left]
  have hKQ : (2 : Nat) ^ k ≤ 2 ^ (k + b) := Nat.pow_le_pow_right (by omega) (by omega)
  have hQ64 : (2 : Nat) ^ (k + b) ≤ 2 ^ 64 := Nat.pow_le_pow_right (by omega) h
  have p1 : (1 : Nat) ≤ 2 ^ k := Nat.one_le_two_pow
  rw [e3, e4]
  omega

/-- `x & ~(mask << k) | (v << k)` — the inline `push_back` bitmap update —
replaces the `b`-bit digit of `x` at bit position `k` by `v`. -/
theorem writeDigit_eq {x v b k : Nat} (hx : x < 2 ^ 64) (hkb : k + b ≤ 64)
    (hv : v < 2 ^ b) :
    (x &&& (2 ^ 64 - 1 - ((2 ^ b - 1) <<< k))) ||| (v <<< k) =
      x % 2 ^ k + 2 ^ k * (v + 2 ^ b * (x / 2 ^ (k + b))) := by
  apply Nat.eq_of_testBit_eq
  intro i
  have hmod : x % 2 ^ k < 2 ^ k := Nat.mod_lt _ (Nat.two_pow_pos k)
  have hones : 2 ^ k - 1 < 2 ^ (k + b) := by
    have h1 : (1 : Nat) ≤ 2 ^ k := Nat.one_le_two_pow
    have h2 : (2 : Nat) ^ k ≤ 2 ^ (k + b) := Nat.pow_le_pow_right (by omega) (by omega)
    omega
  rw [Nat.testBit_or, Nat.testBit_and, negMask_split hkb, Nat.testBit_shiftLeft,
    testBit_addMul hones, testBit_addMul hmod]
  rcases Nat.lt_or_ge i k with h1 | h1
  · -- low region: keep bits of x
    simp [h1, Nat.not_le_of_gt h1, show i < k + b by omega,
      Nat.testBit_two_pow_sub_one, Nat.testBit_mod_two_pow]
  · rw [testBit_addMul hv]
    rcases Nat.lt_or_ge i (k + b) with h2 | h2
    · -- digit region: bits come from v
      simp [Nat.not_lt_of_ge h1, h1, h2, Nat.testBit_two_pow_sub_one,
        show i - k < b by omega]
    · -- high region: keep the high bits of x
      have hvb : v.testBit (i - k) = false :=
        testBit_false_of_lt hv (by omega)
      rw [testBit_div_pow]
      have e : k + b + (i - k - b) = i := by omega
      have e2 : i - (k + b) = i - k - b := by omega
      rcases Nat.lt_or_ge i 64 with h3 | h3
      · simp only [Nat.not_lt_of_ge h1, Nat.not_lt_of_ge h2, h1, hvb, e2, if_false,
          Nat.testBit_two_pow_sub_one, show i - k - b < 64 - k - b by omega, e,
          ge_iff_le, Bool.and_true, Bool.and_false, Bool.or_false,
          show k ≤ i by omega, show ¬ i - k < b by omega, decide_true_eq_true]
      · have hx0 : x.testBit i = false := testBit_false_of_lt hx h3
        simp [Nat.not_lt_of_ge h1, Nat.not_lt_of_ge h2, h1, hvb, e2,
          Nat.testBit_two_pow_sub_one, show ¬ i - k - b < 64 - k - b by omega, e, hx0]

/-- `x |= mask << k` — retiring a field — sets the `b`-bit digit of `x` at
bit position `k` to the sentinel. -/
theorem orDigit_eq {x b k : Nat} (hkb : k + b ≤ 64) :
    x ||| ((2 ^ b - 1) <<< k) =
      x % 2 ^ k + 2 ^ k * ((2 ^ b - 1) + 2 ^ b * (x / 2 ^ (k + b))) := by
  apply Nat.eq_of_testBit_eq
  intro i
  have hmod : x % 2 ^ k < 2 ^ k := Nat.mod_lt _ (Nat.two_pow_pos k)
  have hones : (2 : Nat) ^ b - 1 < 2 ^ b := by
    have : (1 : Nat) ≤ 2 ^ b := Nat.one_le_two_pow
    omega
  rw [Nat.testBit_or, Nat.testBit_shiftLeft, testBit_addMul hmod,
    testBit_addMul hones]
  rcases Nat.lt_or_ge i k with h1 | h1
  · simp [h1, Nat.not_le_of_gt h1, Nat.testBit_mod_two_pow]
  · rcases Nat.lt_or_ge i (k + b) with h2 | h2
    · simp [Nat.not_lt_of_ge h1, h1, Nat.testBit_two_pow_sub_one,
        show i - k < b by omega]
    · rw [testBit_div_pow]
      have e : k + b + (i - k - b) = i := by omega
      simp [Nat.not_lt_of_ge h1, h1, Nat.testBit_two_pow_sub_one,
        show ¬ i - k < b by omega, e]

/-! ## Configuration

`ssv<Bufsize, Index>` compile-time constants (`src/ssv.hpp`, lines 18-33).
`W` is the bit width of `Index`.  The `valid` predicate collects the
template's `static_assert`s plus the implicit assumptions of the code:
`Bufsize >= sizeof(heapvec *)`, at least one bitmap field, and `B ≤ 254`
because the decoded `lenarray`, `size` and the transition's `offsets`
buffer are `uint8_t`. -/

/-- Fuel-driven bit counting; with `fuel ≥ m` this is `std::bit_width(m)`.
(Structural recursion on the fuel keeps it kernel-computable.) -/
def bwGo (fuel : Nat) (m : Nat) : Nat :=
  match fuel with
  | 0 => 0
  | fuel + 1 => if m = 0 then 0 else bwGo fuel (m / 2) + 1

/-- `std::bit_width`. -/
def bitWidth (n : Nat) : Nat := bwGo n n

theorem bwGo_gt : ∀ (fuel m : Nat), m ≤ fuel → m < 2 ^ bwGo fuel m := by
  intro fuel
  induction fuel with
  | zero => intro m h; simp [bwGo]; omega
  | succ fuel ih =>
    intro m h
    by_cases hm : m = 0
    · simp [bwGo, hm]
    · simp only [bwGo, hm, if_false]
      have h2 := ih (m / 2) (by omega)
      rw [Nat.pow_succ]
      omega

/-- Every `Nat` is below `2 ^ bit_width`. -/
theorem lt_two_pow_bitWidth (n : Nat) : n < 2 ^ bitWidth n :=
  bwGo_gt n n (Nat.le_refl n)

structure Cfg where
  B : Nat
  W : Nat
deriving DecidableEq, Repr

namespace Cfg

/-- `std::bit_width(Bufsize)` for `Bufsize ≥ 1`. -/
def bits (c : Cfg) : Nat := bitWidth c.B

/-- `(Index(1) << bits) - 1`, the sentinel. -/
def mask (c : Cfg) : Nat := 2 ^ c.bits - 1

/-- `(sizeof(Index) * 8 - 1) / bits`. -/
def Maxstrings (c : Cfg) : Nat := (c.W - 1) / c.bits

def bitmaskSize (c : Cfg) : Nat := c.Maxstrings * c.bits

def fullmask (c : Cfg) : Nat := 2 ^ c.bitmaskSize - 1

/-- `sizeof datasmol = Bufsize - sizeof(heapvec *)`. -/
def smol (c : Cfg) : Nat := c.B - 8

/-- `sizeof(ssv)`: the union (`Index` word followed by the byte buffer)
rounded up to pointer alignment. -/
def sizeofSsv (c : Cfg) : Nat := align8 (c.W / 8 + c.B)

/-- `sizeof(heapvec)`: two `u64` header fields. -/
def header : Nat := 16

def valid (c : Cfg) : Prop :=
  8 ≤ c.B ∧ c.B ≤ 254 ∧ c.B < c.mask ∧ 1 ≤ c.Maxstrings ∧ 8 ≤ c.W ∧ c.W ≤ 64

instance : DecidablePred valid := fun c => by unfold valid; infer_instance

theorem bits_pos (c : Cfg) (h : 1 ≤ c.B) : 1 ≤ c.bits := by
  unfold bits bitWidth
  obtain ⟨m, hm⟩ := Nat.exists_eq_succ_of_ne_zero (show c.B ≠ 0 by omega)
  rw [hm]
  simp [bwGo]

theorem lt_two_pow_bits (c : Cfg) : c.B < 2 ^ c.bits :=
  lt_two_pow_bitWidth c.B

theorem mask_lt_two_pow_bits (c : Cfg) : c.mask < 2 ^ c.bits := by
  have : (1 : Nat) ≤ 2 ^ c.bits := Nat.one_le_two_pow
  unfold mask
  omega

theorem bitmaskSize_le (c : Cfg) (h : c.W ≤ 64) : c.bitmaskSize ≤ 63 := by
  unfold bitmaskSize Maxstrings
  have h1 : (c.W - 1) / c.bits * c.bits ≤ c.W - 1 := Nat.div_mul_le_self _ _
  omega

theorem Maxstrings_le (c : Cfg) (hB : 1 ≤ c.B) (hW : c.W ≤ 64) :
    c.Maxstrings ≤ 63 := by
  have h1 := c.bitmaskSize_le hW
  have h2 := c.bits_pos hB
  have h3 : c.Maxstrings * 1 ≤ c.Maxstrings * c.bits := Nat.mul_le_mul_left _ h2
  unfold bitmaskSize at h1
  omega

end Cfg

/-- The default configuration `ssv<120, uint64_t>`. -/
def dflt : Cfg := ⟨120, 64⟩

theorem dflt_bits : dflt.bits = 7 := by decide
theorem dflt_mask : dflt.mask = 127 := by decide
theorem dflt_Maxstrings : dflt.Maxstrings = 9 := by decide
theorem dflt_sizeofSsv : dflt.sizeofSsv = 128 := by decide
theorem dflt_valid : dflt.valid := by decide

/-! ## The packed length bitmap

`encodeFull b ds` is the number whose base-`2^b` digits are `ds`; the
well-formed bitmap of a list of string lengths `ls` is `encodeLens`:
the lengths as digits, sentinel-filled up to `Maxstrings`. -/

def encodeFull (b : Nat) : List Nat → Nat
  | [] => 0
  | d :: ds => d + 2 ^ b * encodeFull b ds

def padded (c : Cfg) (ls : List Nat) : List Nat :=
  ls ++ List.replicate (c.Maxstrings - ls.length) c.mask

def encodeLens (c : Cfg) (ls : List Nat) : Nat := encodeFull c.bits (padded c ls)

/-- A bitmap of `n` sentinel digits is `n` digits of all-ones. -/
theorem encodeFull_replicate_mask (b : Nat) : ∀ n : Nat,
    encodeFull b (List.replicate n (2 ^ b - 1)) = 2 ^ (n * b) - 1 := by
  intro n
  induction n with
  | zero => simp [encodeFull]
  | succ n ih =>
    rw [List.replicate_succ]
    show (2 ^ b - 1) + 2 ^ b * encodeFull b (List.replicate n (2 ^ b - 1)) = _
    rw [ih, Nat.succ_mul, Nat.pow_add]
    have h1 : 1 ≤ 2 ^ b := Nat.one_le_two_pow
    have h2 : 1 ≤ 2 ^ (n * b) := Nat.one_le_two_pow
    have h3 : 1 ≤ 2 ^ (n * b) * 2 ^ b := Nat.mul_le_mul h2 h1
    zify [h1, h2, h3]
    ring

/-- The all-sentinel bitmap of `ssv()` encodes the empty list. -/
theorem encodeLens_nil (c : Cfg) : encodeLens c [] = c.fullmask := by
  unfold encodeLens padded Cfg.fullmask Cfg.bitmaskSize Cfg.mask
  simp only [List.nil_append, List.length_nil, Nat.sub_zero]
  exact encodeFull_replicate_mask c.bits c.Maxstrings

/-- `Σ (field + 1)`: the inline bytes of a list of lengths, one separator
NUL per string. -/
def sumb : List Nat → Nat
  | [] => 0
  | l :: ls => l + 1 + sumb ls

theorem sumb_append (xs ys : List Nat) : sumb (xs ++ ys) = sumb xs + sumb ys := by
  induction xs with
  | nil => simp [sumb]
  | cons x xs ih => simp [sumb, ih]; omega

theorem sumb_take_le (xs : List Nat) (n : Nat) : sumb (xs.take n) ≤ sumb xs := by
  conv_rhs => rw [← List.take_append_drop n xs]
  rw [sumb_append]
  omega

theorem encodeFull_lt (b : Nat) : ∀ ds : List Nat,
    (∀ d ∈ ds, d < 2 ^ b) → encodeFull b ds < 2 ^ (b * ds.length) := by
  intro ds
  induction ds with
  | nil => intro _; simp [encodeFull]
  | cons d rest ih =>
    intro h
    have hd : d < 2 ^ b := h d (List.mem_cons_self d rest)
    have hrest := ih (fun x hx => h x (List.mem_cons_of_mem d hx))
    simp only [encodeFull, List.length_cons]
    have e : b * (rest.length + 1) = b + b * rest.length := by ring
    rw [e, Nat.pow_add]
    nlinarith [Nat.one_le_two_pow (n := b)]

theorem encodeFull_mod {b d : Nat} (ds : List Nat) (hd : d < 2 ^ b) :
    encodeFull b (d :: ds) % 2 ^ b = d := by
  simp only [encodeFull]
  rw [Nat.add_mul_mod_self_left, Nat.mod_eq_of_lt hd]

theorem encodeFull_div {b d : Nat} (ds : List Nat) (hd : d < 2 ^ b) :
    encodeFull b (d :: ds) / 2 ^ b = encodeFull b ds := by
  simp only [encodeFull]
  rw [Nat.add_mul_div_left _ _ (Nat.two_pow_pos b), Nat.div_eq_of_lt hd, Nat.zero_add]

theorem padded_length (c : Cfg) (ls : List Nat) (h : ls.length ≤ c.Maxstrings) :
    (padded c ls).length = c.Maxstrings := by
  simp [padded]
  omega

theorem padded_mem (c : Cfg) (ls : List Nat) (h : ∀ l ∈ ls, l < 2 ^ c.bits) :
    ∀ d ∈ padded c ls, d < 2 ^ c.bits := by
  intro d hd
  rcases List.mem_append.mp hd with h1 | h1
  · exact h d h1
  · rw [List.eq_of_mem_replicate h1]
    exact c.mask_lt_two_pow_bits

/-- Absorption: a trailing explicit sentinel is the same bitmap as the
sentinel fill. -/
theorem encodeLens_snoc_mask (c : Cfg) (ls : List Nat)
    (h : ls.length < c.Maxstrings) :
    encodeLens c (ls ++ [c.mask]) = encodeLens c ls := by
  unfold encodeLens padded
  congr 1
  rw [List.append_assoc]
  congr 1
  simp only [List.length_append, List.length_singleton]
  have e : c.Maxstrings - ls.length = (c.Maxstrings - (ls.length + 1)) + 1 := by omega
  rw [e, List.replicate_succ]
  rfl

/-! ## `inplace_decode` (`src/ssv.hpp`, lines 100-120) -/

/-- The `decoded` struct: count of non-sentinel fields, total inline bytes
(`u8`, hence mod 256), and the per-field values. -/
structure Dec where
  nfields : Nat
  usize : Nat
  lenarray : List Nat
deriving DecidableEq, Repr

/-- The body of `inplace_decode`, digit by digit.  The C++ `for` loop scans
fields `0 .. Maxstrings-1` in ascending order, accumulating the valid-field
count and the `u8` byte total; this recursion reads digit 0 (`lens & mask`)
and recurses on `lens >> bits`, which visits the same field values in the
same order and accumulates the same sums (`u8` addition is
associative-commutative mod 256). -/
def decGo (c : Cfg) : Nat → Nat → Dec
  | 0, _ => ⟨0, 0, []⟩
  | m + 1, lens =>
      let l := lens &&& c.mask
      let d := decGo c m (lens >>> c.bits)
      if l = c.mask then ⟨d.nfields, d.usize, l :: d.lenarray⟩
      else ⟨d.nfields + 1, (l + 1 + d.usize) % 256, l :: d.lenarray⟩

def inplace_decode (c : Cfg) (lengths : Nat) : Dec := decGo c c.Maxstrings lengths

theorem and_mask_digit (c : Cfg) {d : Nat} (ds : List Nat) (hd : d < 2 ^ c.bits) :
    encodeFull c.bits (d :: ds) &&& c.mask = d := by
  show _ &&& (2 ^ c.bits - 1) = d
  rw [Nat.and_pow_two_sub_one_eq_mod, encodeFull_mod ds hd]

theorem shift_bits_digit (c : Cfg) {d : Nat} (ds : List Nat) (hd : d < 2 ^ c.bits) :
    encodeFull c.bits (d :: ds) >>> c.bits = encodeFull c.bits ds := by
  rw [Nat.shiftRight_eq_div_pow, encodeFull_div ds hd]

/-- Decoding a well-formed bitmap recovers the length list: field count,
inline byte total and the padded length array. -/
theorem decGo_encodeFull (c : Cfg) :
    ∀ (m : Nat) (ls : List Nat), ls.length ≤ m →
      (∀ l ∈ ls, l < c.mask) → sumb ls < 256 →
      decGo c m (encodeFull c.bits (ls ++ List.replicate (m - ls.length) c.mask)) =
        ⟨ls.length, sumb ls, ls ++ List.replicate (m - ls.length) c.mask⟩ := by
  intro m
  induction m with
  | zero =>
    intro ls h _ _
    have : ls = [] := List.eq_nil_of_length_eq_zero (by omega)
    subst this
    rfl
  | succ m ih =>
    intro ls hlen hmem hsum
    have hmask : c.mask < 2 ^ c.bits := c.mask_lt_two_pow_bits
    cases ls with
    | nil =>
      simp only [List.nil_append, List.length_nil, Nat.sub_zero] at *
      rw [List.replicate_succ]
      have hrec := ih [] (by simp) (by simp) (by simp [sumb])
      simp only [List.nil_append, List.length_nil, Nat.sub_zero] at hrec
      simp only [decGo, and_mask_digit c _ hmask, shift_bits_digit c _ hmask,
        hrec, if_true, sumb]
    | cons l rest =>
      have hl : l < c.mask := hmem l (List.mem_cons_self l rest)
      have hl2 : l < 2 ^ c.bits := Nat.lt_trans hl hmask
      have hrest : rest.length ≤ m := by
        simp only [List.length_cons] at hlen; omega
      have hsumr : sumb rest < 256 := by
        simp only [sumb] at hsum; omega
      have hrec := ih rest hrest (fun x hx => hmem x (List.mem_cons_of_mem l hx)) hsumr
      have e : (l :: rest).length = rest.length + 1 := rfl
      rw [e, show m + 1 - (rest.length + 1) = m - rest.length by omega,
        List.cons_append]
      simp only [decGo, and_mask_digit c _ hl2, shift_bits_digit c _ hl2, hrec,
        show ¬ l = c.mask by omega, if_false]
      have : sumb (l :: rest) = l + 1 + sumb rest := rfl
      simp only [sumb] at hsum ⊢
      rw [Nat.mod_eq_of_lt (by omega)]

/-- `inplace_decode` on a well-formed bitmap. -/
theorem inplace_decode_encodeLens (c : Cfg) (ls : List Nat)
    (h1 : ls.length ≤ c.Maxstrings) (h2 : ∀ l ∈ ls, l < c.mask)
    (h3 : sumb ls < 256) :
    inplace_decode c (encodeLens c ls) = ⟨ls.length, sumb ls, padded c ls⟩ :=
  decGo_encodeFull c c.Maxstrings ls h1 h2 h3

/-! ## Bitmap updates at the digit-list level -/

/-- Replacing one digit: the arithmetic form produced by `writeDigit_eq` /
`orDigit_eq` is `List.set` on the digit list. -/
theorem encodeFull_set {b : Nat} :
    ∀ (ds : List Nat) (p v : Nat), p < ds.length → (∀ d ∈ ds, d < 2 ^ b) →
      encodeFull b ds % 2 ^ (b * p) +
        2 ^ (b * p) * (v + 2 ^ b * (encodeFull b ds / 2 ^ (b * p + b))) =
      encodeFull b (ds.set p v) := by
  intro ds
  induction ds with
  | nil => intro p v h _; simp at h
  | cons d rest ih =>
    intro p v hp hmem
    have hd : d < 2 ^ b := hmem d (List.mem_cons_self d rest)
    cases p with
    | zero =>
      simp only [Nat.mul_zero, Nat.pow_zero, Nat.mod_one, Nat.zero_add,
        Nat.one_mul, Nat.zero_add, List.set_cons_zero]
      rw [encodeFull_div rest hd]
      rfl
    | succ p =>
      have hp' : p < rest.length := by simp at hp; omega
      have hmem' : ∀ x ∈ rest, x < 2 ^ b := fun x hx => hmem x (List.mem_cons_of_mem d hx)
      have ihp := ih p v hp' hmem'
      simp only [List.set_cons_succ]
      show encodeFull b (d :: rest) % 2 ^ (b * (p + 1)) +
          2 ^ (b * (p + 1)) * (v + 2 ^ b * (encodeFull b (d :: rest) / 2 ^ (b * (p + 1) + b))) =
        encodeFull b (d :: rest.set p v)
      set E := encodeFull b rest with hE
      have e1 : (2 : Nat) ^ (b * (p + 1)) = 2 ^ b * 2 ^ (b * p) := by
        rw [← Nat.pow_add]; congr 1; ring
      have e2 : (2 : Nat) ^ (b * (p + 1) + b) = 2 ^ b * 2 ^ (b * p + b) := by
        rw [← Nat.pow_add]; congr 1; ring
      have hxE : encodeFull b (d :: rest) = d + 2 ^ b * E := rfl
      have hmodlt : E % 2 ^ (b * p) < 2 ^ (b * p) := Nat.mod_lt _ (Nat.two_pow_pos _)
      have hmod : (d + 2 ^ b * E) % (2 ^ b * 2 ^ (b * p)) =
          d + 2 ^ b * (E % 2 ^ (b * p)) := by
        conv_lhs => rw [show E = 2 ^ (b * p) * (E / 2 ^ (b * p)) + E % 2 ^ (b * p) from
          (Nat.div_add_mod E (2 ^ (b * p))).symm]
        have e3 : d + 2 ^ b * (2 ^ (b * p) * (E / 2 ^ (b * p)) + E % 2 ^ (b * p)) =
            (d + 2 ^ b * (E % 2 ^ (b * p))) + (2 ^ b * 2 ^ (b * p)) * (E / 2 ^ (b * p)) := by
          ring
        rw [e3, Nat.add_mul_mod_self_left]
        exact Nat.mod_eq_of_lt (by nlinarith)
      have hdiv : (d + 2 ^ b * E) / (2 ^ b * 2 ^ (b * p + b)) = E / 2 ^ (b * p + b) := by
        rw [← Nat.div_div_eq_div_mul]
        congr 1
        rw [Nat.add_mul_div_left _ _ (Nat.two_pow_pos b), Nat.div_eq_of_lt hd, Nat.zero_add]
      rw [hxE, e1, e2, hmod, hdiv]
      have hfold : encodeFull b (d :: rest.set p v) =
          d + 2 ^ b * encodeFull b (rest.set p v) := rfl
      rw [hfold, ← ihp]
      ring

theorem encodeLens_lt (c : Cfg) (hW : c.W ≤ 64) (ls : List Nat)
    (hlen : ls.length ≤ c.Maxstrings) (hmem : ∀ l ∈ ls, l < 2 ^ c.bits) :
    encodeLens c ls < 2 ^ 64 := by
  have hbms := c.bitmaskSize_le hW
  have h1 := encodeFull_lt c.bits (padded c ls) (padded_mem c ls hmem)
  have h2 : c.bits * (padded c ls).length ≤ 64 := by
    rw [padded_length c ls hlen, Nat.mul_comm]
    have : c.Maxstrings * c.bits = c.bitmaskSize := rfl
    omega
  calc encodeLens c ls < 2 ^ (c.bits * (padded c ls).length) := h1
    _ ≤ 2 ^ 64 := Nat.pow_le_pow_right (by omega) h2

theorem shift_room (c : Cfg) (hW : c.W ≤ 64) {p : Nat} (hp : p < c.Maxstrings) :
    p * c.bits + c.bits ≤ 64 := by
  have hbms := c.bitmaskSize_le hW
  have h1 : (p + 1) * c.bits ≤ c.Maxstrings * c.bits :=
    Nat.mul_le_mul_right _ (by omega)
  have e1 : (p + 1) * c.bits = p * c.bits + c.bits := by ring
  have e2 : c.Maxstrings * c.bits = c.bitmaskSize := rfl
  omega

/-- The inline `push_back` bitmap update
(`lengths &= ~(mask << (nfields*bits)); lengths |= len << (nfields*bits)`)
appends one field. -/
theorem write_encode (c : Cfg) (hW : c.W ≤ 64) (ls : List Nat) (v : Nat)
    (hlen : ls.length < c.Maxstrings) (hmem : ∀ l ∈ ls, l < 2 ^ c.bits)
    (hv : v < 2 ^ c.bits) :
    (encodeLens c ls &&& (2 ^ 64 - 1 - (c.mask <<< (ls.length * c.bits)))) |||
        (v <<< (ls.length * c.bits)) =
      encodeLens c (ls ++ [v]) := by
  have hpadlen : (padded c ls).length = c.Maxstrings := padded_length c ls (by omega)
  have hx : encodeLens c ls < 2 ^ 64 := encodeLens_lt c hW ls (by omega) hmem
  rw [show c.mask = 2 ^ c.bits - 1 from rfl,
    writeDigit_eq hx (shift_room c hW hlen) hv,
    show ls.length * c.bits = c.bits * ls.length from Nat.mul_comm _ _]
  simp only [encodeLens]
  rw [encodeFull_set (padded c ls) ls.length v (by omega) (padded_mem c ls hmem)]
  show encodeFull c.bits _ = encodeFull c.bits (padded c (ls ++ [v]))
  congr 1
  unfold padded
  rw [List.set_append_right _ _ (Nat.le_refl _), Nat.sub_self,
    show c.Maxstrings - ls.length = (c.Maxstrings - (ls.length + 1)) + 1 by omega,
    List.replicate_succ, List.set_cons_zero]
  simp [List.append_assoc]

/-- Setting a single field to the sentinel is `List.set` on the padded
digits. -/
theorem orDigit_encode (c : Cfg) (hW : c.W ≤ 64) (ls : List Nat) (p : Nat)
    (hp : p < c.Maxstrings) (hlen : ls.length ≤ c.Maxstrings)
    (hmem : ∀ l ∈ ls, l < 2 ^ c.bits) :
    encodeLens c ls ||| (c.mask <<< (p * c.bits)) =
      encodeFull c.bits ((padded c ls).set p c.mask) := by
  have hpadlen : (padded c ls).length = c.Maxstrings := padded_length c ls hlen
  rw [show c.mask = 2 ^ c.bits - 1 from rfl,
    orDigit_eq (shift_room c hW hp),
    show p * c.bits = c.bits * p from Nat.mul_comm _ _]
  simp only [encodeLens]
  rw [encodeFull_set (padded c ls) p (2 ^ c.bits - 1) (by omega) (padded_mem c ls hmem)]

/-- Retiring the field just past `ys` removes a trailing entry. -/
theorem retire_snoc (c : Cfg) (hW : c.W ≤ 64) (ys : List Nat) (a : Nat)
    (hlen : ys.length + 1 ≤ c.Maxstrings)
    (hmem : ∀ l ∈ ys ++ [a], l < 2 ^ c.bits) :
    encodeLens c (ys ++ [a]) ||| (c.mask <<< (ys.length * c.bits)) =
      encodeLens c ys := by
  rw [orDigit_encode c hW (ys ++ [a]) ys.length (by omega)
    (by simp only [List.length_append, List.length_cons, List.length_nil]; omega) hmem]
  have hlist : (padded c (ys ++ [a])).set ys.length c.mask = padded c ys := by
    unfold padded
    have h1 : c.Maxstrings - (ys ++ [a]).length + 1 = c.Maxstrings - ys.length := by
      simp only [List.length_append, List.length_cons, List.length_nil]
      omega
    rw [List.append_assoc, List.set_append_right _ _ (Nat.le_refl _), Nat.sub_self]
    simp only [List.singleton_append, List.set_cons_zero]
    rw [← List.replicate_succ, h1]
  rw [hlist]
  rfl

/-- `pop_back`'s `lengths |= mask << ((nfields - 1) * bits)` drops the last
field. -/
theorem retire_last_encode (c : Cfg) (hW : c.W ≤ 64) (ls : List Nat)
    (hne : ls ≠ []) (hlen : ls.length ≤ c.Maxstrings)
    (hmem : ∀ l ∈ ls, l < 2 ^ c.bits) :
    encodeLens c ls ||| (c.mask <<< ((ls.length - 1) * c.bits)) =
      encodeLens c ls.dropLast := by
  have e := List.dropLast_concat_getLast hne
  have hlY : ls.length - 1 = ls.dropLast.length := by
    rw [← e]; simp
  rw [show encodeLens c ls = encodeLens c (ls.dropLast ++ [ls.getLast hne]) by rw [e],
    show ls.length - 1 = ls.dropLast.length from hlY]
  exact retire_snoc c hW ls.dropLast (ls.getLast hne)
    (by
      rw [← hlY]
      have h2 : 1 ≤ ls.length := List.length_pos.mpr hne
      omega)
    (by rw [e]; exact hmem)

/-- The retire loops: `for (i = lo; i < lo + n; i++) lengths |= mask << (i*bits)`. -/
def retireIter (c : Cfg) : Nat → Nat → Nat → Nat
  | x, _lo, 0 => x
  | x, lo, n + 1 => retireIter c (x ||| (c.mask <<< (lo * c.bits))) (lo + 1) n

/-- Retiring fields `lo, lo+1, …` up to at least `ls.length` truncates the
encoded list to its first `lo` entries. -/
theorem retireIter_encode (c : Cfg) (hW : c.W ≤ 64) :
    ∀ (n : Nat) (ls : List Nat) (lo : Nat), ls.length ≤ lo + n →
      lo + n ≤ c.Maxstrings → (∀ l ∈ ls, l < 2 ^ c.bits) →
      retireIter c (encodeLens c ls) lo n = encodeLens c (ls.take lo) := by
  intro n
  induction n with
  | zero =>
    intro ls lo h1 _ _
    rw [List.take_of_length_le (by omega)]
    rfl
  | succ n ih =>
    intro ls lo h1 h2 hmem
    have hloM : lo < c.Maxstrings := by omega
    show retireIter c (encodeLens c ls ||| (c.mask <<< (lo * c.bits))) (lo + 1) n =
      encodeLens c (ls.take lo)
    rcases Nat.lt_or_ge lo ls.length with hlt | hge
    · have hlen : ls.length ≤ c.Maxstrings := by omega
      rw [orDigit_encode c hW ls lo hloM hlen hmem]
      have hset : (padded c ls).set lo c.mask = padded c (ls.set lo c.mask) := by
        unfold padded
        rw [List.set_append_left _ _ hlt, List.length_set]
      rw [hset]
      have hmem' : ∀ l ∈ ls.set lo c.mask, l < 2 ^ c.bits := by
        intro l hl
        rcases List.mem_or_eq_of_mem_set hl with h | h
        · exact hmem l h
        · rw [h]; exact c.mask_lt_two_pow_bits
      have ihp := ih (ls.set lo c.mask) (lo + 1)
        (by rw [List.length_set]; omega) (by omega) hmem'
      show retireIter c (encodeLens c (ls.set lo c.mask)) (lo + 1) n = _
      rw [ihp]
      have htake : (ls.set lo c.mask).take (lo + 1) = ls.take lo ++ [c.mask] := by
        rw [List.take_succ, List.set_take,
          List.set_eq_of_length_le (by rw [List.length_take]; omega),
          List.getElem?_set_self hlt]
        rfl
      rw [htake, encodeLens_snoc_mask c _ (by rw [List.length_take]; omega)]
    · -- `lo` is already in the sentinel fill: the store rewrites a sentinel.
      rw [orDigit_encode c hW ls lo hloM (by omega) hmem]
      have hset : (padded c ls).set lo c.mask = padded c ls := by
        unfold padded
        rw [List.set_append_right _ _ hge, List.set_replicate_self]
      rw [hset]
      have ihp := ih ls (lo + 1) (by omega) (by omega) hmem
      show retireIter c (encodeLens c ls) (lo + 1) n = _
      rw [ihp, List.take_of_length_le (by omega), List.take_of_length_le (by omega)]

/-! ## The heapvec (spill block), `src/ssv.hpp` lines 35-83

The model keeps the live view: `offsets` are the offset-array entries in
`[0, nstrings)` as far as they were ever written (reverse-indexed from the
end of the block in the real layout), `payload` the bytes `[0, fullsize())`. -/

structure Heapvec where
  capacity : Nat
  nstrings : Nat
  offsets : List Nat
  payload : List Nat
deriving DecidableEq, Repr

namespace Heapvec

/-- `fullsize()`: `nstrings == 0 ? 0 : offset(nstrings - 1)`.  An offset
read outside the live view (possible only after `nstrings` underflows or
overruns) is an out-of-block access: `none`. -/
def fullsize? (h : Heapvec) : Option Nat :=
  if h.nstrings = 0 then some 0 else h.offsets.get? (h.nstrings - 1)

/-- `operator[]`: string `idx` of the spill: bytes
`data[offset(idx-1) .. offset(idx)-1)` (from 0 for `idx = 0`). -/
def get? (h : Heapvec) (idx : Nat) : Option (List Nat) :=
  if idx = 0 then
    (h.offsets.get? 0).map fun o => h.payload.take (o - 1)
  else
    (h.offsets.get? (idx - 1)).bind fun o1 =>
      (h.offsets.get? idx).map fun o2 =>
        (h.payload.drop o1).take (o2 - o1 - 1)

/-- `append` (`ssv.hpp` 75-82): copy the bytes at `fullsize()`, write the
trailing NUL, store the end offset at index `nstrings` and bump `nstrings`.
Having enough `usable()` space is the caller's duty.  The callers below
evaluate `fullsize?` to `some` before appending, so the `getD` default is
never taken on a defined path. -/
def appendD (h : Heapvec) (s : List Nat) : Heapvec :=
  let off := if h.nstrings = 0 then 0 else h.offsets.getD (h.nstrings - 1) 0
  { capacity := h.capacity
    nstrings := w64 (h.nstrings + 1)
    offsets := h.offsets ++ [off + s.length + 1]
    payload := h.payload.take off ++ s ++ [0] }

end Heapvec

/-! ## The ssv value (`src/ssv.hpp` lines 86-96)

`data` is the `Bufsize`-byte inline buffer.  When `inplace = 0` its last 8
bytes alias the heap pointer; the pointed-to block is carried in `heap`
(`none` = no live block / null pointer). -/

structure Ssv where
  inplace : Bool
  lengths : Nat
  data : List Nat
  heap : Option Heapvec
deriving DecidableEq, Repr

inductive Err where
  | allocation
  | outOfRange
deriving DecidableEq, Repr

/-- Result of a mutating call: normal return, exception (with the state at
the throw — the code never mutates before throwing, which the C6 theorem
makes explicit), or undefined behaviour. -/
inductive StepResult where
  | ok (st : Ssv)
  | ex (e : Err) (st : Ssv)
  | ub
deriving DecidableEq, Repr

/-- `ssv()`: `inplace = 1`, `lengths = fullmask`, zeroed buffer. -/
def emptySsv (c : Cfg) : Ssv := ⟨true, c.fullmask, List.replicate c.B 0, none⟩

/-- `size()` (`ssv.hpp` 194-197).  With `inplace = 0` and a null heap
pointer the C++ would dereference null; that state is unreachable and the
value returned here for it is immaterial. -/
def sizeFn (c : Cfg) (st : Ssv) : Nat :=
  let d := inplace_decode c st.lengths
  if st.inplace then d.nfields
  else match st.heap with
    | some h => w64 (d.nfields + h.nstrings)
    | none => d.nfields

/-- `fullsize()` (`ssv.hpp` 190-193). -/
def fullsizeFn? (c : Cfg) (st : Ssv) : Option Nat :=
  let d := inplace_decode c st.lengths
  if st.inplace then some d.usize
  else match st.heap with
    | some h => h.fullsize?.map fun fs => w64 (d.usize + fs)
    | none => none

/-- `empty()` (`ssv.hpp` 198): first bitmap field sentinel, or spill count
zero. -/
def emptyFn (c : Cfg) (st : Ssv) : Bool :=
  if st.inplace then (st.lengths &&& c.mask) == c.mask
  else match st.heap with
    | some h => h.nstrings == 0
    | none => true

def isinplaceFn (st : Ssv) : Bool := st.inplace

def isonheapFn (st : Ssv) : Bool := !st.inplace

/-- Start offset of inline string `idx`:
`for (i = 0; i < idx; i++) offset += lenarray[i] + 1`. -/
def inlineOff (d : Dec) (idx : Nat) : Nat := sumb (d.lenarray.take idx)

/-- `operator[]` (`ssv.hpp` 317-326).  For `idx` at or past `nfields` it
indexes the spill; with `inplace = 1` that dereferences payload bytes as a
pointer (undefined), modelled by `heap = none ⇒ none`. -/
def getIx? (c : Cfg) (st : Ssv) (idx : Nat) : Option (List Nat) :=
  let d := inplace_decode c st.lengths
  if idx < d.nfields then
    some ((st.data.drop (inlineOff d idx)).take (d.lenarray.getD idx 0))
  else match st.heap with
    | some h => h.get? (idx - d.nfields)
    | none => none

/-- `at` (`ssv.hpp` 327-334). -/
def atFn? (c : Cfg) (st : Ssv) (idx : Nat) : Option (Except Err (List Nat)) :=
  let d := inplace_decode c st.lengths
  if idx < d.nfields then
    (getIx? c st idx).map Except.ok
  else if st.inplace = false then
    match st.heap with
    | some h =>
      if idx - d.nfields < h.nstrings then (h.get? (idx - d.nfields)).map Except.ok
      else some (Except.error Err.outOfRange)
    | none => none
  else some (Except.error Err.outOfRange)

/-- The transition scan (`ssv.hpp` 225-235): walk the inline strings in
order accumulating the running byte total; record the first index whose
cumulative end crosses `sizeof datasmol` (`mustmove`, initially
`Maxstrings`) and add the spill cost `len + 1 + 8` of every string from
there on.  Returns `(mustmove, extra spaceneeded)`. -/
def transScan (c : Cfg) : List Nat → Nat → Nat → Nat → Nat → Nat × Nat
  | [], _i, _tot, mm, extra => (mm, extra)
  | l :: r, i, tot, mm, extra =>
      let tot2 := tot + l + 1
      if tot2 > c.smol then
        transScan c r (i + 1) tot2 (if mm = c.Maxstrings then i else mm)
          (extra + (l + 1 + 8))
      else
        transScan c r (i + 1) tot2 mm extra

/-- Fold a fresh zeroed block over a string list (the transition's eviction
loop plus the final append). -/
def buildHeap (cap : Nat) (xs : List (List Nat)) : Heapvec :=
  xs.foldl Heapvec.appendD ⟨cap, 0, [], []⟩

/-- `push_back` (`ssv.hpp` 208-284).  `allocOk` is the `calloc` oracle;
`junk` the unknowable byte image of the freshly written heap pointer inside
the inline buffer.  `.ub` marks paths on which the C++ performs an
out-of-bounds access: a `size_t` wrap feeding an undersized allocation that
is then written past, reading offsets outside the block after an
`nstrings` underflow, or appending into a spill that even after the
one-time doubling lacks room (`heapvec::append`'s precondition — "caller
needs to know that there's enough space" — is then violated and the write
overruns the block). -/
def pushBack (c : Cfg) (st : Ssv) (s : List Nat) (allocOk : Bool)
    (junk : List Nat) : StepResult :=
  let d := inplace_decode c st.lengths
  if st.inplace then
    if d.nfields < c.Maxstrings ∧ d.usize + s.length + 1 ≤ c.B then
      -- Case A: inline fast path
      let sh := d.nfields * c.bits
      let lengths2 := (st.lengths &&& (2 ^ 64 - 1 - (c.mask <<< sh))) ||| (s.length <<< sh)
      let data2 := st.data.take d.usize ++ s ++ [0] ++ st.data.drop (d.usize + s.length + 1)
      .ok { st with lengths := lengths2, data := data2 }
    else
      -- Case B: inline-to-spill transition
      let ds := d.lenarray.take d.nfields
      let mmex := transScan c ds 0 0 c.Maxstrings 0
      let sn0 := s.length + 1 + 8 + 16 + mmex.2
      let sn1 := if sn0 < c.sizeofSsv then c.sizeofSsv else sn0
      if allocOk = false then .ex .allocation st
      else if 2 ^ 64 - 8 < sn1 then .ub
      else
        let cap := align8 sn1
        let moved := (List.range' mmex.1 (d.nfields - mmex.1)).map fun i =>
          (st.data.drop (sumb (ds.take i))).take (ds.getD i 0)
        let h2 := Heapvec.appendD (buildHeap cap moved) s
        let lengths2 := retireIter c st.lengths mmex.1 (d.nfields - mmex.1)
        let data2 := st.data.take c.smol ++ junk
        .ok { inplace := false, lengths := lengths2, data := data2, heap := some h2 }
  else
    -- Case C: extend the existing spill
    match st.heap with
    | none => .ub
    | some h =>
      match h.fullsize? with
      | none => .ub
      | some fs =>
        let u := u64ofInt ((h.capacity : Int) - 16 - fs - 8 * h.nstrings)
        if s.length + 1 + 8 > u then
          if allocOk = false then .ex .allocation st
          else if 2 ^ 64 ≤ h.capacity * 2 then .ub
          else
            let h2 : Heapvec := ⟨h.capacity * 2, h.nstrings,
              h.offsets.take h.nstrings, h.payload.take fs⟩
            let u2 := u64ofInt ((h2.capacity : Int) - 16 - fs - 8 * h2.nstrings)
            if s.length + 1 + 8 > u2 then .ub
            else .ok { st with heap := some (h2.appendD s) }
        else .ok { st with heap := some (h.appendD s) }

/-- `pop_back` (`ssv.hpp` 285-292).  Inline: retire the top field (on an
empty bitmap the C++ shifts by `(u8(0) - 1) * bits`, a negative amount:
undefined).  Spilled: `heap->nstrings--` in `uint64_t` — on an empty spill
this wraps to `2^64 - 1`.  The model truncates the live view to the new
count. -/
def popBack (c : Cfg) (st : Ssv) : Option Ssv :=
  if st.inplace then
    let d := inplace_decode c st.lengths
    if d.nfields = 0 then none
    else some { st with lengths := st.lengths ||| (c.mask <<< ((d.nfields - 1) * c.bits)) }
  else match st.heap with
    | none => none
    | some h =>
      let m := u64ofInt ((h.nstrings : Int) - 1)
      let h2 : Heapvec :=
        ⟨h.capacity, m, h.offsets.take m, h.payload.take ((h.offsets.take m).getLastD 0)⟩
      some { st with heap := some h2 }

/-- `resize` (`ssv.hpp` 294-315).  Note the code *decrements* the spill
count by `idx - onstack` (`heap->nstrings -= idx - onstack`). -/
def resizeOp (c : Cfg) (st : Ssv) (idx : Nat) : StepResult :=
  if st.inplace = false ∧ st.heap = none then .ub
  else
    let d := inplace_decode c st.lengths
    let sz := sizeFn c st
    let onstack := d.nfields
    let onheap := u64ofInt ((sz : Int) - onstack)
    if idx > sz then .ex .outOfRange st
    else
      let st1 :=
        if 0 < onheap then
          if idx > onstack then
            match st.heap with
            | some h =>
              let m := u64ofInt ((h.nstrings : Int) - ((idx : Int) - onstack))
              { st with heap := some ⟨h.capacity, m, h.offsets.take m,
                  h.payload.take ((h.offsets.take m).getLastD 0)⟩ }
            | none => st
          else { st with inplace := true, heap := none }
        else st
      let st2 :=
        if onstack > idx then
          { st1 with lengths := retireIter c st1.lengths idx (c.Maxstrings - idx) }
        else st1
      .ok st2

/-- `clear()` (`ssv.hpp` 199): `*this = {}` — swap with a fresh empty
temporary, whose destruction frees the old spill. -/
def clearOp (c : Cfg) (_st : Ssv) : Ssv := emptySsv c

/-- Copy construction / assignment (`ssv.hpp` 129-146, 154-162), successful
allocation case.  A spilled source's block is byte-copied (same capacity
and contents); the destination's inline tail then holds its own block
pointer (`junk`). -/
def copyOf (c : Cfg) (st : Ssv) (junk : List Nat) : Ssv :=
  if st.inplace then { st with heap := none }
  else { inplace := false, lengths := st.lengths,
         data := st.data.take c.smol ++ junk, heap := st.heap }

/-- Move construction (`ssv.hpp` 147-153): the fresh object's union is
default-initialized — the member initializer `data{}` zeroes the byte
buffer, hence also the aliased heap-pointer slot, while the packed `Index`
word (`inplace`/`lengths`) stays indeterminate (`jIn`, `jLen`) — and then
all storage is swapped.  First component: the new object; second: the
moved-from source. -/
def moveCtorOp (c : Cfg) (jIn : Bool) (jLen : Nat) (src : Ssv) : Ssv × Ssv :=
  (src, ⟨jIn, jLen, List.replicate c.B 0, none⟩)

/-- Move assignment (`ssv.hpp` 163-170): element-wise swap of all storage.
First component: the destination; second: the moved-from source. -/
def moveAssignOp (dst src : Ssv) : Ssv × Ssv := (src, dst)

/-- Destructor (`ssv.hpp` 185-188): the block passed to `free`, if any. -/
def dtorFrees (st : Ssv) : Option Heapvec :=
  if st.inplace then none else st.heap

/-- Extract the state of a successful step (with a fallback for the
impossible branches of concrete, fully evaluated chains). -/
def okD (d : Ssv) : StepResult → Ssv
  | .ok st => st
  | _ => d

/-- An 8-byte pointer image for the concrete chains. -/
def junk8 : List Nat := List.replicate 8 0

/-- Chain A (default configuration): push a 120-byte string (spills on
transition with an empty inline region), then two 1-byte strings onto the
spill, then `resize(1)`. -/
def stA1 : Ssv := okD (emptySsv dflt)
  (pushBack dflt (emptySsv dflt) (List.replicate 120 97) true junk8)

def stA2 : Ssv := okD (emptySsv dflt) (pushBack dflt stA1 [98] true junk8)

def stA3 : Ssv := okD (emptySsv dflt) (pushBack dflt stA2 [99] true junk8)

def stA4 : Ssv := okD (emptySsv dflt) (resizeOp dflt stA3 1)

/-- Chain B (default configuration): push a 1-byte string (inline), push a
119-byte string (spills, the 1-byte string stays inline), then pop twice:
the first pop empties the spill, the second wraps its count. -/
def stB1 : Ssv := okD (emptySsv dflt) (pushBack dflt (emptySsv dflt) [97] true junk8)

def stB2 : Ssv := okD (emptySsv dflt)
  (pushBack dflt stB1 (List.replicate 119 98) true junk8)

def stB3 : Ssv := (popBack dflt stB2).getD (emptySsv dflt)

def stB4 : Ssv := (popBack dflt stB3).getD (emptySsv dflt)

/-- The spill count reflects the live strings (it has not underflowed past
zero): every block's `nstrings` is far below the wrap-around range. -/
def spillCountSane (st : Ssv) : Prop :=
  ∀ h : Heapvec, st.heap = some h → h.nstrings < 2 ^ 63

/-- States reachable through public operations respecting the documented
preconditions: `pop_back` never on an SSV holding no strings, `resize(n)`
only with `n ≤ size()`.  Only defined (non-UB) steps have successors.
`s.length < 2 ^ 64` because a `string_view`'s size is a `size_t`; `junk`
is 8 bytes because it images a pointer.  Moved-from objects are excluded —
they support only destruction and reassignment. -/
inductive Reach (c : Cfg) : Ssv → Prop where
  | init : Reach c (emptySsv c)
  | push {st st' : Ssv} {s junk : List Nat} {allocOk : Bool} :
      Reach c st → s.length < 2 ^ 64 → junk.length = 8 →
      pushBack c st s allocOk junk = .ok st' → Reach c st'
  | pop {st st' : Ssv} : Reach c st → 0 < sizeFn c st →
      popBack c st = some st' → Reach c st'
  | resize {st st' : Ssv} {n : Nat} : Reach c st → n ≤ sizeFn c st →
      resizeOp c st n = .ok st' → Reach c st'
  | copy {st : Ssv} {junk : List Nat} : Reach c st → junk.length = 8 →
      Reach c (copyOf c st junk)
  | clear {st : Ssv} : Reach c st → Reach c (clearOp c st)

/-! ## Spill layout: the abstraction of a well-formed block

A live spill holding the byte strings `ss` has payload
`s₀‖NUL‖s₁‖NUL‖…` and offset array `offsets[i] = Σ_{j ≤ i} (|s_j| + 1)`. -/

def nulcat : List (List Nat) → List Nat
  | [] => []
  | s :: r => s ++ [0] ++ nulcat r

def totb : List (List Nat) → Nat
  | [] => 0
  | s :: r => s.length + 1 + totb r

def offsAux (base : Nat) : List (List Nat) → List Nat
  | [] => []
  | s :: r => (base + s.length + 1) :: offsAux (base + s.length + 1) r

theorem totb_append (xs ys : List (List Nat)) :
    totb (xs ++ ys) = totb xs + totb ys := by
  induction xs with
  | nil => simp [totb]
  | cons x xs ih => simp [totb, ih]; omega

theorem length_nulcat (ss : List (List Nat)) : (nulcat ss).length = totb ss := by
  induction ss with
  | nil => rfl
  | cons s r ih => simp [nulcat, totb, ih]; omega

theorem nulcat_append (xs ys : List (List Nat)) :
    nulcat (xs ++ ys) = nulcat xs ++ nulcat ys := by
  induction xs with
  | nil => rfl
  | cons x xs ih => simp [nulcat, ih]

theorem offsAux_length (base : Nat) (ss : List (List Nat)) :
    (offsAux base ss).length = ss.length := by
  induction ss generalizing base with
  | nil => rfl
  | cons s r ih => simp [offsAux, ih]

theorem offsAux_append (base : Nat) (xs : List (List Nat)) (y : List Nat) :
    offsAux base (xs ++ [y]) = offsAux base xs ++ [base + totb xs + y.length + 1] := by
  induction xs generalizing base with
  | nil => simp [offsAux, totb]
  | cons x xs ih =>
    simp only [List.cons_append, offsAux, List.append_eq]
    rw [ih (base + x.length + 1)]
    have e2 : base + x.length + 1 + totb xs + y.length + 1 =
        base + totb (x :: xs) + y.length + 1 := by
      simp only [totb]
      omega
    rw [e2]

theorem offsAux_get? (base : Nat) (ss : List (List Nat)) (i : Nat) :
    (offsAux base ss).get? i =
      if i < ss.length then some (base + totb (ss.take (i + 1))) else none := by
  induction ss generalizing base i with
  | nil => simp [offsAux]
  | cons s r ih =>
    cases i with
    | zero =>
      simp [offsAux, totb, List.take_succ_cons, List.take_zero]
      omega
    | succ i =>
      simp only [offsAux, List.get?_cons_succ, ih, List.length_cons,
        List.take_succ_cons, totb]
      by_cases hi : i < r.length
      · simp only [hi, if_true, show i + 1 < r.length + 1 by omega, if_true,
          Option.some.injEq]
        omega
      · simp [hi, show ¬ i + 1 < r.length + 1 by omega]

theorem offsAux_getLastD (base : Nat) (ss : List (List Nat)) :
    (offsAux base ss).getLastD 0 = if ss = [] then 0 else base + totb ss := by
  induction ss generalizing base with
  | nil => simp [offsAux]
  | cons s r ih =>
    rw [show offsAux base (s :: r) =
      (base + s.length + 1) :: offsAux (base + s.length + 1) r from rfl]
    rw [List.getLastD_cons]
    by_cases hr : r = []
    · subst hr
      simp only [offsAux, List.getLastD_nil]
      rw [if_neg (by simp)]
      simp only [totb]
      omega
    · have hne : offsAux (base + s.length + 1) r ≠ [] := by
        intro hcon
        have hlen := offsAux_length (base + s.length + 1) r
        rw [hcon] at hlen
        exact hr (List.eq_nil_of_length_eq_zero hlen.symm)
      obtain ⟨x, hx⟩ := Option.isSome_iff_exists.mp (List.getLast?_isSome.mpr hne)
      have h2 := ih (base + s.length + 1)
      rw [List.getLastD_eq_getLast?, hx, Option.getD_some, if_neg hr] at h2
      rw [List.getLastD_eq_getLast?, hx, Option.getD_some, if_neg (by simp)]
      simp only [totb]
      omega

theorem totb_take_le (ss : List (List Nat)) (n : Nat) : totb (ss.take n) ≤ totb ss := by
  conv_rhs => rw [← List.take_append_drop n ss]
  rw [totb_append]
  omega

/-- `appendD` on a well-formed block appends the string. -/
theorem appendD_normal (cap n : Nat) (ss : List (List Nat)) (s : List Nat)
    (hn : n = ss.length) (hlt : n + 1 < 2 ^ 64) :
    Heapvec.appendD ⟨cap, n, offsAux 0 ss, nulcat ss⟩ s =
      ⟨cap, n + 1, offsAux 0 (ss ++ [s]), nulcat (ss ++ [s])⟩ := by
  unfold Heapvec.appendD
  have hoff : (if n = 0 then 0 else (offsAux 0 ss).getD (n - 1) 0) = totb ss := by
    by_cases h0 : n = 0
    · have : ss = [] := by
        subst hn; exact List.eq_nil_of_length_eq_zero h0
      simp [h0, this, totb]
    · have hne : ss ≠ [] := by
        subst hn
        intro hcon
        subst hcon
        simp at h0
      have hlast : (offsAux 0 ss).getD (n - 1) 0 = (offsAux 0 ss).getLastD 0 := by
        have e : n - 1 = (offsAux 0 ss).length - 1 := by
          rw [offsAux_length]; omega
        rw [e, List.getLastD_eq_getLast?, List.getLast?_eq_getElem?]
        rw [List.getD_eq_getElem?_getD]
      rw [if_neg h0, hlast, offsAux_getLastD, if_neg hne, Nat.zero_add]
  simp only [hoff]
  congr 1
  · rw [w64_eq_of_lt (by omega), hn]
  · rw [offsAux_append, Nat.zero_add]
  · rw [nulcat_append, List.take_of_length_le (by rw [length_nulcat])]
    simp [nulcat]

/-- `buildHeap` lays out its strings. -/
theorem buildHeap_normal (cap : Nat) (xs : List (List Nat))
    (hlt : xs.length < 2 ^ 64) :
    buildHeap cap xs = ⟨cap, xs.length, offsAux 0 xs, nulcat xs⟩ := by
  suffices h : ∀ (xs ss : List (List Nat)), ss.length + xs.length < 2 ^ 64 →
      xs.foldl Heapvec.appendD ⟨cap, ss.length, offsAux 0 ss, nulcat ss⟩ =
        ⟨cap, (ss ++ xs).length, offsAux 0 (ss ++ xs), nulcat (ss ++ xs)⟩ by
    have := h xs [] (by simpa using hlt)
    simpa [buildHeap] using this
  intro xs
  induction xs with
  | nil => intro ss h; simp
  | cons x xs ih =>
    intro ss h
    simp only [List.foldl_cons]
    rw [appendD_normal cap ss.length ss x rfl (by simp at h; omega)]
    have e : ss.length + 1 = (ss ++ [x]).length := by simp
    rw [e, ih (ss ++ [x]) (by simp at h ⊢; omega)]
    simp

/-- Reading string `i` from a well-formed block. -/
theorem heapGet_normal (cap n : Nat) (ss : List (List Nat)) (i : Nat)
    (hi : i < ss.length) :
    Heapvec.get? ⟨cap, n, offsAux 0 ss, nulcat ss⟩ i = ss.get? i := by
  unfold Heapvec.get?
  by_cases h0 : i = 0
  · subst h0
    simp only [if_true]
    obtain ⟨s, r, rfl⟩ : ∃ s r, ss = s :: r := by
      cases ss with
      | nil => simp at hi
      | cons s r => exact ⟨s, r, rfl⟩
    rw [offsAux_get?]
    simp only [List.length_cons, show (0 : Nat) < r.length + 1 by omega, if_true,
      Option.map_some', List.take_succ_cons, List.take_zero]
    simp only [totb, nulcat, Nat.zero_add]
    rw [show s.length + 1 + 0 - 1 = s.length by omega, List.append_assoc,
      List.take_left]
    simp
  · simp only [h0, if_false]
    rw [offsAux_get?, offsAux_get?]
    simp only [show i - 1 < ss.length by omega, hi, if_true, Option.some_bind,
      Option.map_some', Nat.zero_add]
    have e1 : ss.take (i - 1 + 1) = ss.take i := by congr 1; omega
    rw [e1]
    have hsplit : nulcat ss = nulcat (ss.take i) ++ nulcat (ss.drop i) := by
      rw [← nulcat_append, List.take_append_drop]
    rw [hsplit, List.drop_left' (by rw [length_nulcat])]
    have hdrop : ss.drop i = ss[i] :: ss.drop (i + 1) := List.drop_eq_getElem_cons hi
    have e2 : ss.take (i + 1) = ss.take i ++ [ss[i]] := by
      rw [← List.take_concat_get ss i hi, List.concat_eq_append]
    have htake : totb (ss.take (i + 1)) = totb (ss.take i) + ss[i].length + 1 := by
      rw [e2, totb_append]
      simp only [totb]
      omega
    rw [hdrop, htake]
    simp only [nulcat]
    rw [show totb (ss.take i) + ss[i].length + 1 - totb (ss.take i) - 1 = ss[i].length
        by omega, List.append_assoc, List.take_left]
    rw [List.get?_eq_getElem?, List.getElem?_eq_getElem hi]

theorem offsAux_take (base : Nat) (ss : List (List Nat)) (k : Nat) :
    (offsAux base ss).take k = offsAux base (ss.take k) := by
  induction ss generalizing base k with
  | nil => simp [offsAux]
  | cons s r ih =>
    cases k with
    | zero => simp [offsAux]
    | succ k => simp [offsAux, List.take_succ_cons, ih]

theorem nulcat_take (ss : List (List Nat)) (k : Nat) :
    (nulcat ss).take (totb (ss.take k)) = nulcat (ss.take k) := by
  conv_lhs => rw [show nulcat ss = nulcat (ss.take k) ++ nulcat (ss.drop k) by
    rw [← nulcat_append, List.take_append_drop]]
  rw [List.take_left' (by rw [length_nulcat])]

/-- The payload prefix up to the last kept offset is the truncated view. -/
theorem nulcat_take_getLastD (ss : List (List Nat)) (k : Nat) :
    (nulcat ss).take ((offsAux 0 (ss.take k)).getLastD 0) = nulcat (ss.take k) := by
  by_cases h : ss.take k = []
  · rw [h]
    simp [offsAux, nulcat]
  · rw [offsAux_getLastD, if_neg h, Nat.zero_add, nulcat_take]

/-- `fullsize()` of a well-formed block is the payload end. -/
theorem fullsize_normal (cap n : Nat) (ss : List (List Nat)) (hn : n = ss.length) :
    Heapvec.fullsize? ⟨cap, n, offsAux 0 ss, nulcat ss⟩ = some (totb ss) := by
  subst hn
  unfold Heapvec.fullsize?
  dsimp only
  by_cases h0 : ss.length = 0
  · have he : ss = [] := List.eq_nil_of_length_eq_zero h0
    simp [h0, he, totb]
  · rw [if_neg h0, offsAux_get?]
    rw [if_pos (by omega), List.take_of_length_le (by omega)]
    simp

/-! ## The reachability invariant -/

/-- A live spill laying out the strings `ss`, with the separation invariant
`header + payloadEnd + 8·nstrings ≤ capacity`. -/
def HeapNormal (h : Heapvec) : Prop :=
  ∃ ss : List (List Nat),
    h.offsets = offsAux 0 ss ∧ h.payload = nulcat ss ∧ h.nstrings = ss.length ∧
    16 + totb ss + 8 * ss.length ≤ h.capacity

/-- A spill whose `u64` count has wrapped below zero by `k` excess pops
(reachable by `pop_back` on a spilled SSV whose spill is already empty
while inline strings remain). -/
def HeapWrapped (h : Heapvec) (nf : Nat) : Prop :=
  h.offsets = [] ∧ h.payload = [] ∧
  ∃ k, 1 ≤ k ∧ k ≤ nf ∧ h.nstrings = 2 ^ 64 - k

def capOK (c : Cfg) (h : Heapvec) : Prop :=
  h.capacity % 8 = 0 ∧ c.sizeofSsv ≤ h.capacity ∧ h.capacity < 2 ^ 64

/-- State invariant: the bitmap encodes a list `ls` of string lengths that
fit the inline budget (`≤ B - 8` once spilled), and a spilled state owns a
well-formed or wrapped block. -/
def Inv (c : Cfg) (st : Ssv) : Prop :=
  ∃ ls : List Nat,
    st.lengths = encodeLens c ls ∧ ls.length ≤ c.Maxstrings ∧
    (∀ l ∈ ls, l ≤ c.B) ∧ sumb ls ≤ c.B ∧
    (st.inplace = true → st.heap = none) ∧
    (st.inplace = false →
      sumb ls ≤ c.smol ∧
      ∃ h, st.heap = some h ∧ capOK c h ∧
        (HeapNormal h ∨ HeapWrapped h ls.length))

theorem inv_decode (c : Cfg) (hc : c.valid) {st : Ssv} {ls : List Nat}
    (hl : st.lengths = encodeLens c ls) (hlen : ls.length ≤ c.Maxstrings)
    (hmem : ∀ l ∈ ls, l ≤ c.B) (hsum : sumb ls ≤ c.B) :
    inplace_decode c st.lengths = ⟨ls.length, sumb ls, padded c ls⟩ := by
  rw [hl]
  exact inplace_decode_encodeLens c ls hlen
    (fun l hmem2 => Nat.lt_of_le_of_lt (hmem l hmem2) hc.2.2.1)
    (by have := hc.2.1; omega)

theorem mem_two_pow_of_le_B (c : Cfg) {ls : List Nat}
    (hmem : ∀ l ∈ ls, l ≤ c.B) : ∀ l ∈ ls, l < 2 ^ c.bits :=
  fun l h => Nat.lt_of_le_of_lt (hmem l h) (c.lt_two_pow_bits)

theorem padded_take_nfields (c : Cfg) (ls : List Nat) :
    (padded c ls).take ls.length = ls := by
  unfold padded
  rw [List.take_left]

/-! ## Characterizing the transition scan -/

/-- After the first crossing the running total stays above `smol`, so every
remaining string is counted into `spaceneeded` and `mustmove` is kept. -/
theorem transScan_post (c : Cfg) :
    ∀ (ds : List Nat) (i tot mm ex : Nat), mm ≠ c.Maxstrings → c.smol < tot →
      transScan c ds i tot mm ex = (mm, ex + (sumb ds + 8 * ds.length)) := by
  intro ds
  induction ds with
  | nil =>
    intro i tot mm ex _ _
    simp [transScan, sumb]
  | cons l r ih =>
    intro i tot mm ex hmm htot
    have hcross : tot + l + 1 > c.smol := by omega
    simp only [transScan]
    rw [if_pos hcross, if_neg hmm]
    rw [ih (i + 1) (tot + l + 1) mm (ex + (l + 1 + 8)) hmm (by omega)]
    simp only [sumb, List.length_cons, Prod.mk.injEq, true_and]
    ring

/-- Characterization of the transition scan: starting below the threshold,
`mustmove` comes out as the first absolute index whose cumulative end
crosses `smol` (`Maxstrings` if none does), and `extra` as the spill cost
`Σ (len + 1 + 8)` of the strings from there on. -/
theorem transScan_spec (c : Cfg) :
    ∀ (ds : List Nat) (i tot ex : Nat), tot ≤ c.smol →
      i + ds.length ≤ c.Maxstrings →
      ∃ mm', transScan c ds i tot c.Maxstrings ex =
          (mm', ex + (sumb (ds.drop (mm' - i)) + 8 * (ds.length - (mm' - i)))) ∧
        tot + sumb (ds.take (mm' - i)) ≤ c.smol ∧
        (mm' = c.Maxstrings ∨ (i ≤ mm' ∧ mm' - i < ds.length)) := by
  intro ds
  induction ds with
  | nil =>
    intro i tot ex htot _
    refine ⟨c.Maxstrings, ?_, ?_, Or.inl rfl⟩
    · simp [transScan, sumb]
    · simp [sumb]
      omega
  | cons l r ih =>
    intro i tot ex htot hroom
    simp only [List.length_cons] at hroom
    by_cases hcross : tot + l + 1 > c.smol
    · -- the first string already crosses: `mustmove = i`
      have hiM : i ≠ c.Maxstrings := by omega
      refine ⟨i, ?_, ?_, Or.inr ⟨Nat.le_refl i, by simp⟩⟩
      · simp only [transScan]
        rw [if_pos hcross]
        simp only [eq_self_iff_true, if_true]
        rw [transScan_post c r (i + 1) (tot + l + 1) i (ex + (l + 1 + 8)) hiM (by omega)]
        simp only [Nat.sub_self, List.drop_zero, List.length_cons, Nat.sub_zero,
          Prod.mk.injEq, true_and, sumb]
        ring
      · simp [sumb]
        omega
    · have hrec := ih (i + 1) (tot + l + 1) ex (by omega) (by omega)
      obtain ⟨mm', heq, hpre, hcase⟩ := hrec
      have hstep : transScan c (l :: r) i tot c.Maxstrings ex =
          transScan c r (i + 1) (tot + l + 1) c.Maxstrings ex := by
        simp only [transScan]
        rw [if_neg hcross]
      rcases hcase with hM | ⟨hge, hlt⟩
      · subst hM
        refine ⟨c.Maxstrings, ?_, ?_, Or.inl rfl⟩
        · rw [hstep, heq]
          have e1 : r.drop (c.Maxstrings - (i + 1)) = [] :=
            List.drop_eq_nil_of_le (by omega)
          have e2 : (l :: r).drop (c.Maxstrings - i) = [] :=
            List.drop_eq_nil_of_le (by simp; omega)
          rw [e1, e2]
          simp only [sumb, List.length_cons, Prod.mk.injEq, true_and]
          omega
        · have e3 : r.take (c.Maxstrings - (i + 1)) = r :=
            List.take_of_length_le (by omega)
          have e4 : (l :: r).take (c.Maxstrings - i) = l :: r :=
            List.take_of_length_le (by simp; omega)
          rw [e3] at hpre
          rw [e4]
          simp only [sumb] at *
          omega
      · refine ⟨mm', ?_, ?_, Or.inr ⟨by omega, by simp; omega⟩⟩
        · rw [hstep, heq]
          have e1 : mm' - i = (mm' - (i + 1)) + 1 := by omega
          rw [e1, List.drop_succ_cons, List.length_cons]
          have e2 : r.length + 1 - (mm' - (i + 1) + 1) = r.length - (mm' - (i + 1)) := by
            omega
          rw [e2]
        · have e1 : mm' - i = (mm' - (i + 1)) + 1 := by omega
          rw [e1, List.take_succ_cons]
          simp only [sumb] at *
          omega

/-- The scan as called by `push_back`, with the facts the invariant needs. -/
theorem transScan_facts (c : Cfg) (ds : List Nat) (hlen : ds.length ≤ c.Maxstrings) :
    ∃ mm ex, transScan c ds 0 0 c.Maxstrings 0 = (mm, ex) ∧
      ex = sumb (ds.drop mm) + 8 * (ds.length - mm) ∧
      sumb (ds.take mm) ≤ c.smol ∧
      (mm = c.Maxstrings ∨ mm < ds.length) := by
  obtain ⟨mm', heq, hpre, hcase⟩ := transScan_spec c ds 0 0 0 (Nat.zero_le _) (by omega)
  refine ⟨mm', _, ?_, rfl, ?_, ?_⟩
  · rw [heq]
    simp
  · simpa using hpre
  · rcases hcase with h | ⟨_, h⟩
    · exact Or.inl h
    · exact Or.inr (by simpa using h)

/-- The evicted strings are read with lengths bounded by the recorded
fields, so their spill payload is at most `sumb` of the dropped suffix. -/
theorem totb_moved_le (data ds : List Nat) :
    ∀ (n mm : Nat), mm + n = ds.length →
      totb ((List.range' mm n).map fun i =>
        (data.drop (sumb (ds.take i))).take (ds.getD i 0)) ≤ sumb (ds.drop mm) := by
  intro n
  induction n with
  | zero =>
    intro mm _
    simp [totb]
  | succ n ih =>
    intro mm h
    have hmm : mm < ds.length := by omega
    rw [List.range'_succ, List.map_cons]
    have hgd : ds.getD mm 0 = ds[mm] := by
      rw [List.getD_eq_getElem?_getD, List.getElem?_eq_getElem hmm]
      rfl
    have hdrop : ds.drop mm = ds[mm] :: ds.drop (mm + 1) := List.drop_eq_getElem_cons hmm
    rw [hdrop]
    have hlen2 : ((data.drop (sumb (ds.take mm))).take (ds.getD mm 0)).length ≤ ds[mm] := by
      rw [← hgd]
      exact Nat.le_trans (List.length_take_le _ _) (Nat.le_refl _)
    have ihm := ih (mm + 1) (by omega)
    simp only [totb, sumb]
    omega

theorem length_moved (data ds : List Nat) (mm n : Nat) :
    ((List.range' mm n).map fun i =>
      (data.drop (sumb (ds.take i))).take (ds.getD i 0)).length = n := by
  rw [List.length_map, List.length_range']

/-! ## Invariant preservation -/

/-- `push_back` preserves the invariant on every defined, successful path. -/
theorem pushBack_inv (c : Cfg) (hc : c.valid) {st st' : Ssv} {s junk : List Nat}
    {allocOk : Bool} (hInv : Inv c st)
    (hstep : pushBack c st s allocOk junk = .ok st') : Inv c st' := by
  obtain ⟨ls, hl, hlen, hmem, hsum, hip1, hip0⟩ := hInv
  have hW : c.W ≤ 64 := hc.2.2.2.2.2
  have hB : 8 ≤ c.B := hc.1
  have hdec := inv_decode c hc hl hlen hmem hsum
  by_cases hip : st.inplace = true
  · -- Case A or B
    rw [pushBack, hdec, if_pos hip] at hstep
    simp only at hstep
    split at hstep
    next hcond =>
      -- Case A: inline fast path
      cases hstep
      obtain ⟨hnf, hfit⟩ := hcond
      have hsB : s.length ≤ c.B := by omega
      have hsbits : s.length < 2 ^ c.bits := Nat.lt_of_le_of_lt hsB c.lt_two_pow_bits
      refine ⟨ls ++ [s.length], ?_, ?_, ?_, ?_, ?_, ?_⟩
      · show (st.lengths &&& _) ||| _ = _
        rw [hl]
        exact write_encode c hW ls s.length hnf (mem_two_pow_of_le_B c hmem) hsbits
      · simp only [List.length_append, List.length_cons, List.length_nil]
        omega
      · intro l hm
        rcases List.mem_append.mp hm with h | h
        · exact hmem l h
        · rw [List.mem_singleton.mp h]; exact hsB
      · rw [sumb_append]
        simp only [sumb]
        omega
      · intro _
        exact hip1 hip
      · intro h
        have h2 : st.inplace = false := h
        rw [hip] at h2
        exact Bool.noConfusion h2
    next hcond =>
      -- Case B: transition
      rw [padded_take_nfields c ls] at hstep
      obtain ⟨mm, ex, heq, hex, hpre, hcase⟩ := transScan_facts c ls hlen
      rw [heq] at hstep
      simp only at hstep
      set sn0 := s.length + 1 + 8 + 16 + ex with hsn0
      set sn1 := if sn0 < c.sizeofSsv then c.sizeofSsv else sn0 with hsn1
      by_cases hA : allocOk = false
      · rw [if_pos hA] at hstep
        exact absurd hstep (by simp)
      rw [if_neg hA] at hstep
      by_cases hG : 2 ^ 64 - 8 < sn1
      · rw [if_pos hG] at hstep
        exact absurd hstep (by simp)
      rw [if_neg hG] at hstep
      case neg =>
        cases hstep
        have hsn0le : sn0 ≤ sn1 := by
          rw [hsn1]; split <;> omega
        have hszle : c.sizeofSsv ≤ sn1 := by
          rw [hsn1]; split <;> omega
        have hsn164 : sn1 ≤ 2 ^ 64 - 8 := by omega
        set moved := (List.range' mm (ls.length - mm)).map fun i =>
          (st.data.drop (sumb (ls.take i))).take (ls.getD i 0) with hmoved
        have hmlen : moved.length = ls.length - mm := length_moved _ _ _ _
        have hmlt : moved.length < 2 ^ 64 := by
          rw [hmlen]; omega
        have hbuild := buildHeap_normal (align8 sn1) moved hmlt
        have happ := appendD_normal (align8 sn1) moved.length moved s rfl
          (by rw [hmlen]; omega)
        have htotmoved : totb moved ≤ sumb (ls.drop mm) := by
          rcases le_or_lt mm ls.length with hmle | hmgt
          · exact totb_moved_le st.data ls (ls.length - mm) mm (by omega)
          · have h1 : ls.length - mm = 0 := by omega
            rw [hmoved, h1]
            simp [totb]
        refine ⟨ls.take mm, ?_, ?_, ?_, ?_, ?_, ?_⟩
        · show retireIter c st.lengths mm (ls.length - mm) = _
          rw [hl]
          exact retireIter_encode c hW (ls.length - mm) ls mm (by omega)
            (by rcases hcase with h | h <;> omega) (mem_two_pow_of_le_B c hmem)
        · rw [List.length_take]
          omega
        · intro l hm
          exact hmem l (List.take_subset mm ls hm)
        · exact Nat.le_trans (sumb_take_le ls mm) hsum
        · intro h
          simp at h
        · intro _
          refine ⟨hpre, Heapvec.mk (align8 sn1) (moved.length + 1)
            (offsAux 0 (moved ++ [s])) (nulcat (moved ++ [s])), ?_, ?_, Or.inl ?_⟩
          · show some ((buildHeap (align8 sn1) moved).appendD s) = _
            rw [hbuild, happ]
          · exact ⟨align8_mod sn1, Nat.le_trans hszle (align8_ge sn1), align8_lt sn1 hsn164⟩
          · refine ⟨moved ++ [s], rfl, rfl, by simp, ?_⟩
            have h1 : totb (moved ++ [s]) = totb moved + (s.length + 1) := by
              rw [totb_append]
              simp [totb]
            have h2 : sn0 ≤ align8 sn1 := Nat.le_trans hsn0le (align8_ge sn1)
            rw [h1]
            simp only [List.length_append, List.length_cons, List.length_nil, hmlen]
            rw [hsn0, hex] at h2
            omega
  · -- Case C: extend the spill
    have hipf : st.inplace = false := by
      simpa using hip
    obtain ⟨hsmol, h, hheap, hcap, hshape⟩ := hip0 hipf
    obtain ⟨cap, ns, offs, pay⟩ := h
    unfold capOK at hcap
    dsimp only at hcap
    obtain ⟨hcap8, hcapsz, hcap64⟩ := hcap
    rw [pushBack, hdec, hipf] at hstep
    simp only [Bool.false_eq_true, if_false, hheap] at hstep
    rcases hshape with ⟨ss, hoffs, hpay, hns, hsep⟩ | ⟨hoffs, hpay, k, hk1, hk2, hkns⟩
    · -- live spill
      dsimp only at hoffs hpay hns hsep
      subst hoffs hpay hns
      rw [fullsize_normal cap ss.length ss rfl] at hstep
      simp only at hstep
      have hns64 : ss.length + 1 < 2 ^ 64 := by omega
      have hcast : ((cap : Int) - 16 - (totb ss : Int) - 8 * (ss.length : Int)) =
          ((cap : Nat) : Int) - (((16 + totb ss + 8 * ss.length) : Nat) : Int) := by
        push_cast
        ring
      have hu : u64ofInt ((cap : Int) - 16 - (totb ss : Int) - 8 * (ss.length : Int)) =
          cap - (16 + totb ss + 8 * ss.length) := by
        rw [hcast]
        exact u64ofInt_sub_eq hsep (by omega)
      rw [hu] at hstep
      have htots : totb (ss ++ [s]) = totb ss + (s.length + 1) := by
        rw [totb_append]
        simp [totb]
      split at hstep
      · -- grow: double once
        split at hstep
        · exact absurd hstep (by simp)
        split at hstep
        · exact absurd hstep (by simp)
        have e1 : (offsAux 0 ss).take ss.length = offsAux 0 ss :=
          List.take_of_length_le (by rw [offsAux_length])
        have e2 : (nulcat ss).take (totb ss) = nulcat ss :=
          List.take_of_length_le (by rw [length_nulcat])
        rw [e1, e2] at hstep
        have hcast2 : (((cap * 2 : Nat) : Int) - 16 - (totb ss : Int) -
            8 * (ss.length : Int)) =
            ((cap * 2 : Nat) : Int) - (((16 + totb ss + 8 * ss.length) : Nat) : Int) := by
          push_cast
          ring
        have hu2 : u64ofInt (((cap * 2 : Nat) : Int) - 16 - (totb ss : Int) -
            8 * (ss.length : Int)) = cap * 2 - (16 + totb ss + 8 * ss.length) := by
          rw [hcast2]
          exact u64ofInt_sub_eq (by omega) (by omega)
        rw [hu2] at hstep
        split at hstep
        · exact absurd hstep (by simp)
        cases hstep
        refine ⟨ls, hl, hlen, hmem, hsum, ?_, ?_⟩
        · intro h2
          simp at h2
        · intro _
          refine ⟨hsmol, _, rfl,
            ⟨show cap * 2 % 8 = 0 by omega, show c.sizeofSsv ≤ cap * 2 by omega,
             show cap * 2 < 2 ^ 64 by omega⟩, Or.inl ?_⟩
          rw [appendD_normal (cap * 2) ss.length ss s rfl hns64]
          refine ⟨ss ++ [s], rfl, rfl, by simp, ?_⟩
          rw [htots]
          simp only [List.length_append, List.length_cons, List.length_nil]
          omega
      · -- room available: plain append
        cases hstep
        refine ⟨ls, hl, hlen, hmem, hsum, ?_, ?_⟩
        · intro h2
          simp at h2
        · intro _
          refine ⟨hsmol, _, rfl, ⟨hcap8, hcapsz, hcap64⟩, Or.inl ?_⟩
          rw [appendD_normal cap ss.length ss s rfl hns64]
          refine ⟨ss ++ [s], rfl, rfl, by simp, ?_⟩
          rw [htots]
          simp only [List.length_append, List.length_cons, List.length_nil]
          omega
    · -- wrapped spill: `fullsize()` reads outside the block, no defined result
      dsimp only at hoffs hpay hkns
      have hM63 : c.Maxstrings ≤ 63 := c.Maxstrings_le (by omega) hW
      have hfull : Heapvec.fullsize? ⟨cap, ns, offs, pay⟩ = none := by
        unfold Heapvec.fullsize?
        dsimp only
        rw [if_neg (by omega : ¬ ns = 0), hoffs]
        rfl
      rw [hfull] at hstep
      exact absurd hstep (by simp)

/-- `pop_back` preserves the invariant whenever `size() > 0` (the spec's
stated precondition). -/
theorem popBack_inv (c : Cfg) (hc : c.valid) {st st' : Ssv}
    (hInv : Inv c st) (hsz : 0 < sizeFn c st)
    (hstep : popBack c st = some st') : Inv c st' := by
  obtain ⟨ls, hl, hlen, hmem, hsum, hip1, hip0⟩ := hInv
  have hW : c.W ≤ 64 := hc.2.2.2.2.2
  have hB : 8 ≤ c.B := hc.1
  have hdec := inv_decode c hc hl hlen hmem hsum
  have hM63 : c.Maxstrings ≤ 63 := c.Maxstrings_le (by omega) hW
  by_cases hip : st.inplace = true
  · -- inline: retire the last field
    rw [popBack, if_pos hip, hdec] at hstep
    simp only at hstep
    split at hstep
    · exact absurd hstep (by simp)
    next hne0 =>
      cases hstep
      have hne : ls ≠ [] := fun h => hne0 (by rw [h]; rfl)
      refine ⟨ls.dropLast, ?_, ?_, ?_, ?_, ?_, ?_⟩
      · show st.lengths ||| _ = _
        rw [hl]
        exact retire_last_encode c hW ls hne hlen (mem_two_pow_of_le_B c hmem)
      · rw [List.length_dropLast]
        omega
      · intro l hm
        exact hmem l (List.dropLast_subset ls hm)
      · have h1 : sumb ls.dropLast ≤ sumb ls := by
          rw [List.dropLast_eq_take]
          exact sumb_take_le ls _
        omega
      · intro _
        exact hip1 hip
      · intro h2
        have h3 : st.inplace = false := h2
        rw [hip] at h3
        exact Bool.noConfusion h3
  · -- spilled: `heap->nstrings--` on the live view
    have hipf : st.inplace = false := by simpa using hip
    obtain ⟨hsmol, h, hheap, hcap, hshape⟩ := hip0 hipf
    obtain ⟨cap, ns, offs, pay⟩ := h
    unfold capOK at hcap
    dsimp only at hcap
    obtain ⟨hcap8, hcapsz, hcap64⟩ := hcap
    rw [popBack, hipf] at hstep
    simp only [Bool.false_eq_true, if_false, hheap] at hstep
    simp [sizeFn, hdec, hipf, hheap] at hsz
    rcases hshape with ⟨ss, hoffs, hpay, hns, hsep⟩ | ⟨hoffs, hpay, k, hk1, hk2, hkns⟩
    · -- live spill
      dsimp only at hoffs hpay hns hsep
      subst hoffs hpay hns
      have hss64 : ss.length < 2 ^ 64 := by omega
      rw [w64_eq_of_lt (by omega)] at hsz
      by_cases hss : ss.length = 0
      · -- empty spill: the count wraps to 2^64 - 1
        have hls1 : 0 < ls.length := by omega
        have hsse : ss = [] := List.eq_nil_of_length_eq_zero hss
        subst hsse
        have e : ((List.length ([] : List (List Nat)) : Nat) : Int) - 1 =
            ((0 : Nat) : Int) - ((1 : Nat) : Int) := by simp
        rw [e, u64ofInt_sub_wrap (by omega) (by omega)] at hstep
        simp only [offsAux, nulcat, List.take_nil] at hstep
        cases hstep
        refine ⟨ls, hl, hlen, hmem, hsum, ?_, ?_⟩
        · intro h2
          simp at h2
        · intro _
          refine ⟨hsmol, _, rfl, ⟨hcap8, hcapsz, hcap64⟩,
            Or.inr ⟨rfl, rfl, 1, by omega, by omega, ?_⟩⟩
          show 2 ^ 64 + 0 - 1 = 2 ^ 64 - 1
          omega
      · -- nonempty spill: drop the top string
        have e : ((ss.length : Nat) : Int) - 1 =
            ((ss.length : Nat) : Int) - ((1 : Nat) : Int) := by push_cast; ring
        rw [e, u64ofInt_sub_eq (by omega) (by omega), offsAux_take,
          nulcat_take_getLastD] at hstep
        cases hstep
        refine ⟨ls, hl, hlen, hmem, hsum, ?_, ?_⟩
        · intro h2
          simp at h2
        · intro _
          refine ⟨hsmol, _, rfl, ⟨hcap8, hcapsz, hcap64⟩, Or.inl ?_⟩
          refine ⟨ss.take (ss.length - 1), rfl, rfl, ?_, ?_⟩
          · show ss.length - 1 = (ss.take (ss.length - 1)).length
            rw [List.length_take]
            omega
          · have h1 := totb_take_le ss (ss.length - 1)
            show 16 + totb (ss.take (ss.length - 1)) +
              8 * (ss.take (ss.length - 1)).length ≤ cap
            rw [List.length_take]
            omega
    · -- wrapped spill: one more excess pop
      dsimp only at hoffs hpay hkns
      subst hoffs hpay hkns
      have hk63 : k ≤ 63 := Nat.le_trans hk2 (Nat.le_trans hlen hM63)
      have hw : w64 (ls.length + (2 ^ 64 - k)) = ls.length - k := by
        unfold w64
        rw [show ls.length + (2 ^ 64 - k) = (ls.length - k) + 2 ^ 64 by omega,
          Nat.add_mod_right, Nat.mod_eq_of_lt (by omega)]
      rw [hw] at hsz
      have e : (((2 ^ 64 - k : Nat) : Nat) : Int) - 1 =
          ((2 ^ 64 - k : Nat) : Int) - ((1 : Nat) : Int) := by push_cast; ring
      rw [e, u64ofInt_sub_eq (by omega) (by omega)] at hstep
      simp only [List.take_nil] at hstep
      cases hstep
      refine ⟨ls, hl, hlen, hmem, hsum, ?_, ?_⟩
      · intro h2
        simp at h2
      · intro _
        refine ⟨hsmol, _, rfl, ⟨hcap8, hcapsz, hcap64⟩,
          Or.inr ⟨rfl, rfl, k + 1, by omega, by omega, ?_⟩⟩
        show 2 ^ 64 - k - 1 = 2 ^ 64 - (k + 1)
        omega

/-- `resize` preserves the invariant (the only failure mode is the
out-of-range throw, which leaves the state untouched). -/
theorem resizeOp_inv (c : Cfg) (hc : c.valid) {st st' : Ssv} {idx : Nat}
    (hInv : Inv c st) (hstep : resizeOp c st idx = .ok st') : Inv c st' := by
  obtain ⟨ls, hl, hlen, hmem, hsum, hip1, hip0⟩ := hInv
  have hW : c.W ≤ 64 := hc.2.2.2.2.2
  have hB : 8 ≤ c.B := hc.1
  have hdec := inv_decode c hc hl hlen hmem hsum
  have hM63 : c.Maxstrings ≤ 63 := c.Maxstrings_le (by omega) hW
  by_cases hip : st.inplace = true
  · -- inline: onheap = 0, only the retire loop can run
    have hszv : sizeFn c st = ls.length := by
      simp [sizeFn, hdec, hip]
    rw [resizeOp, if_neg (by simp [hip])] at hstep
    simp only [hdec, hszv, sub_self, u64ofInt_zero, lt_self_iff_false, if_false] at hstep
    by_cases hidx : idx > ls.length
    · rw [if_pos hidx] at hstep
      exact absurd hstep (by simp)
    rw [if_neg hidx] at hstep
    by_cases hgt : ls.length > idx
    · rw [if_pos hgt] at hstep
      cases hstep
      refine ⟨ls.take idx, ?_, ?_, ?_, ?_, ?_, ?_⟩
      · show retireIter c st.lengths idx (c.Maxstrings - idx) = _
        rw [hl]
        exact retireIter_encode c hW (c.Maxstrings - idx) ls idx (by omega) (by omega)
          (mem_two_pow_of_le_B c hmem)
      · rw [List.length_take]
        omega
      · intro l hm
        exact hmem l (List.take_subset idx ls hm)
      · exact Nat.le_trans (sumb_take_le ls idx) hsum
      · intro _
        exact hip1 hip
      · intro h2
        simp [hip] at h2
    · rw [if_neg hgt] at hstep
      cases hstep
      exact ⟨ls, hl, hlen, hmem, hsum, hip1, hip0⟩
  · -- spilled
    have hipf : st.inplace = false := by simpa using hip
    obtain ⟨hsmol, h, hheap, hcap, hshape⟩ := hip0 hipf
    obtain ⟨cap, ns, offs, pay⟩ := h
    unfold capOK at hcap
    dsimp only at hcap
    obtain ⟨hcap8, hcapsz, hcap64⟩ := hcap
    rw [resizeOp, if_neg (by simp [hheap])] at hstep
    rcases hshape with ⟨ss, hoffs, hpay, hns, hsep⟩ | ⟨hoffs, hpay, k, hk1, hk2, hkns⟩
    · -- live spill
      dsimp only at hoffs hpay hns hsep
      subst hoffs hpay hns
      have hss64 : ss.length < 2 ^ 64 := by omega
      have hszv : sizeFn c st = ls.length + ss.length := by
        simp only [sizeFn, hdec, hipf, hheap, Bool.false_eq_true, if_false]
        exact w64_eq_of_lt (by omega)
      simp only [hdec, hszv, hheap] at hstep
      have honheap : u64ofInt (((ls.length + ss.length : Nat) : Int) -
          ((ls.length : Nat) : Int)) = ss.length := by
        rw [u64ofInt_sub_eq (by omega) (by omega)]
        omega
      rw [honheap] at hstep
      by_cases hidx : idx > ls.length + ss.length
      · rw [if_pos hidx] at hstep
        exact absurd hstep (by simp)
      rw [if_neg hidx] at hstep
      by_cases hss : 0 < ss.length
      · rw [if_pos hss] at hstep
        by_cases hgtn : idx > ls.length
        · -- truncate the spill with the buggy decrement; count stays in range
          rw [if_pos hgtn] at hstep
          have hm : u64ofInt ((ss.length : Int) - ((idx : Int) - (ls.length : Int))) =
              ss.length - (idx - ls.length) := by
            have e : (ss.length : Int) - ((idx : Int) - (ls.length : Int)) =
                ((ss.length : Nat) : Int) - (((idx - ls.length : Nat)) : Int) := by
              omega
            rw [e, u64ofInt_sub_eq (by omega) (by omega)]
          rw [hm, offsAux_take, nulcat_take_getLastD] at hstep
          rw [if_neg (by omega : ¬ ls.length > idx)] at hstep
          cases hstep
          refine ⟨ls, hl, hlen, hmem, hsum, ?_, ?_⟩
          · intro h2
            simp [hipf] at h2
          · intro _
            refine ⟨hsmol, _, rfl, ⟨hcap8, hcapsz, hcap64⟩, Or.inl ?_⟩
            refine ⟨ss.take (ss.length - (idx - ls.length)), rfl, rfl, ?_, ?_⟩
            · show ss.length - (idx - ls.length) = (ss.take (ss.length - (idx - ls.length))).length
              rw [List.length_take]
              omega
            · have h1 := totb_take_le ss (ss.length - (idx - ls.length))
              show 16 + totb (ss.take (ss.length - (idx - ls.length))) +
                8 * (ss.take (ss.length - (idx - ls.length))).length ≤ cap
              rw [List.length_take]
              omega
        · -- idx within the inline strings: free the spill, back inline
          rw [if_neg hgtn] at hstep
          by_cases hgt2 : ls.length > idx
          · rw [if_pos hgt2] at hstep
            cases hstep
            refine ⟨ls.take idx, ?_, ?_, ?_, ?_, fun _ => rfl, ?_⟩
            · show retireIter c st.lengths idx (c.Maxstrings - idx) = _
              rw [hl]
              exact retireIter_encode c hW (c.Maxstrings - idx) ls idx (by omega) (by omega)
                (mem_two_pow_of_le_B c hmem)
            · rw [List.length_take]
              omega
            · intro l hm
              exact hmem l (List.take_subset idx ls hm)
            · exact Nat.le_trans (sumb_take_le ls idx) hsum
            · intro h2
              simp at h2
          · rw [if_neg hgt2] at hstep
            cases hstep
            exact ⟨ls, hl, hlen, hmem, hsum, fun _ => rfl, fun h2 => by simp at h2⟩
      · -- the spill is empty: `onheap = 0`, the block is kept
        rw [if_neg hss] at hstep
        by_cases hgt2 : ls.length > idx
        · rw [if_pos hgt2] at hstep
          cases hstep
          refine ⟨ls.take idx, ?_, ?_, ?_, ?_, ?_, ?_⟩
          · show retireIter c st.lengths idx (c.Maxstrings - idx) = _
            rw [hl]
            exact retireIter_encode c hW (c.Maxstrings - idx) ls idx (by omega) (by omega)
              (mem_two_pow_of_le_B c hmem)
          · rw [List.length_take]
            omega
          · intro l hm
            exact hmem l (List.take_subset idx ls hm)
          · exact Nat.le_trans (sumb_take_le ls idx) hsum
          · intro h2
            simp [hipf] at h2
          · intro _
            exact ⟨Nat.le_trans (sumb_take_le ls idx) hsmol, _, hheap,
              ⟨hcap8, hcapsz, hcap64⟩, Or.inl ⟨ss, rfl, rfl, rfl, hsep⟩⟩
        · rw [if_neg hgt2] at hstep
          cases hstep
          exact ⟨ls, hl, hlen, hmem, hsum, hip1, hip0⟩
    · -- wrapped spill: `onheap` is huge, `idx ≤ size() < nfields`: free + retire
      dsimp only at hoffs hpay hkns
      subst hoffs hpay hkns
      have hk63 : k ≤ 63 := Nat.le_trans hk2 (Nat.le_trans hlen hM63)
      have hszv : sizeFn c st = ls.length - k := by
        simp only [sizeFn, hdec, hipf, hheap, Bool.false_eq_true, if_false]
        show w64 (ls.length + (2 ^ 64 - k)) = ls.length - k
        unfold w64
        rw [show ls.length + (2 ^ 64 - k) = (ls.length - k) + 2 ^ 64 by omega,
          Nat.add_mod_right, Nat.mod_eq_of_lt (by omega)]
      simp only [hdec, hszv, hheap] at hstep
      have honheap : u64ofInt (((ls.length - k : Nat) : Int) -
          ((ls.length : Nat) : Int)) = 2 ^ 64 - k := by
        rw [u64ofInt_sub_wrap (by omega) (by omega)]
        omega
      rw [honheap] at hstep
      by_cases hidx : idx > ls.length - k
      · rw [if_pos hidx] at hstep
        exact absurd hstep (by simp)
      rw [if_neg hidx] at hstep
      rw [if_pos (by omega : 0 < 2 ^ 64 - k), if_neg (by omega : ¬ idx > ls.length),
        if_pos (by omega : ls.length > idx)] at hstep
      cases hstep
      refine ⟨ls.take idx, ?_, ?_, ?_, ?_, fun _ => rfl, ?_⟩
      · show retireIter c st.lengths idx (c.Maxstrings - idx) = _
        rw [hl]
        exact retireIter_encode c hW (c.Maxstrings - idx) ls idx (by omega) (by omega)
          (mem_two_pow_of_le_B c hmem)
      · rw [List.length_take]
        omega
      · intro l hm
        exact hmem l (List.take_subset idx ls hm)
      · exact Nat.le_trans (sumb_take_le ls idx) hsum
      · intro h2
        simp at h2

/-- The freshly constructed `ssv()` satisfies the invariant. -/
theorem emptySsv_inv (c : Cfg) : Inv c (emptySsv c) := by
  refine ⟨[], ?_, ?_, ?_, ?_, fun _ => rfl, ?_⟩
  · show c.fullmask = encodeLens c []
    rw [encodeLens_nil]
  · simp
  · intro l hm
    simp at hm
  · exact Nat.zero_le _
  · intro h2
    simp [emptySsv] at h2

/-- Copying preserves the invariant (the copy shares the abstract value). -/
theorem copyOf_inv (c : Cfg) {st : Ssv} (junk : List Nat) (hInv : Inv c st) :
    Inv c (copyOf c st junk) := by
  obtain ⟨ls, hl, hlen, hmem, hsum, hip1, hip0⟩ := hInv
  unfold copyOf
  by_cases hip : st.inplace = true
  · rw [if_pos hip]
    exact ⟨ls, hl, hlen, hmem, hsum, fun _ => rfl, fun h2 => by simp [hip] at h2⟩
  · rw [if_neg hip]
    have hipf : st.inplace = false := by simpa using hip
    exact ⟨ls, hl, hlen, hmem, hsum, fun h2 => by simp at h2, fun _ => hip0 hipf⟩

/-- Every state reachable through the public interface (with its documented
preconditions) satisfies the structural invariant. -/
theorem reach_inv (c : Cfg) (hc : c.valid) {st : Ssv} (h : Reach c st) :
    Inv c st := by
  induction h with
  | init => exact emptySsv_inv c
  | push _ _ _ hstep ih => exact pushBack_inv c hc ih hstep
  | pop _ hsz hstep ih => exact popBack_inv c hc ih hsz hstep
  | resize _ _ hstep ih => exact resizeOp_inv c hc ih hstep
  | copy _ hj ih => exact copyOf_inv c _ ih
  | clear _ ih => exact emptySsv_inv c

/-! ## The concrete chains are reachable -/

theorem reach_stA1 : Reach dflt stA1 :=
  @Reach.push dflt (emptySsv dflt) stA1 (List.replicate 120 97) junk8 true
    Reach.init (by decide) (by decide) (by decide)

theorem reach_stA2 : Reach dflt stA2 :=
  @Reach.push dflt stA1 stA2 [98] junk8 true
    reach_stA1 (by decide) (by decide) (by decide)

theorem reach_stA3 : Reach dflt stA3 :=
  @Reach.push dflt stA2 stA3 [99] junk8 true
    reach_stA2 (by decide) (by decide) (by decide)

theorem reach_stA4 : Reach dflt stA4 :=
  @Reach.resize dflt stA3 stA4 1 reach_stA3 (by decide) (by decide)

theorem reach_stB1 : Reach dflt stB1 :=
  @Reach.push dflt (emptySsv dflt) stB1 [97] junk8 true
    Reach.init (by decide) (by decide) (by decide)

theorem reach_stB2 : Reach dflt stB2 :=
  @Reach.push dflt stB1 stB2 (List.replicate 119 98) junk8 true
    reach_stB1 (by decide) (by decide) (by decide)

theorem reach_stB3 : Reach dflt stB3 :=
  @Reach.pop dflt stB2 stB3 reach_stB2 (by decide) (by decide)

theorem reach_stB4 : Reach dflt stB4 :=
  @Reach.pop dflt stB3 stB4 reach_stB3 (by decide) (by decide)

/-! ## Further bitmap / list helpers for the claims -/

/-- The low field of an encoded bitmap: the first length, or the sentinel
on an empty list. -/
theorem encodeLens_and_mask (c : Cfg) (hM : 1 ≤ c.Maxstrings) (ls : List Nat)
    (hmem : ∀ l ∈ ls, l < 2 ^ c.bits) :
    encodeLens c ls &&& c.mask = ls.headD c.mask := by
  show _ &&& (2 ^ c.bits - 1) = _
  cases ls with
  | nil =>
    obtain ⟨m, hm⟩ := Nat.exists_eq_succ_of_ne_zero (show c.Maxstrings ≠ 0 by omega)
    show encodeFull c.bits (padded c []) &&& _ = _
    unfold padded
    rw [List.nil_append, List.length_nil, Nat.sub_zero, hm, List.replicate_succ]
    show (c.mask + 2 ^ c.bits * encodeFull c.bits (List.replicate m c.mask)) &&& _ = _
    rw [Nat.and_pow_two_sub_one_eq_mod, Nat.add_mul_mod_self_left]
    exact Nat.mod_eq_of_lt c.mask_lt_two_pow_bits
  | cons l t =>
    show encodeFull c.bits (padded c (l :: t)) &&& _ = _
    unfold padded
    rw [List.cons_append]
    show (l + 2 ^ c.bits * encodeFull c.bits _) &&& _ = _
    rw [Nat.and_pow_two_sub_one_eq_mod, Nat.add_mul_mod_self_left]
    exact Nat.mod_eq_of_lt (hmem l (List.mem_cons_self l t))

theorem padded_take_le (c : Cfg) (ls : List Nat) {i : Nat} (h : i ≤ ls.length) :
    (padded c ls).take i = ls.take i := by
  unfold padded
  exact List.take_append_of_le_length h

theorem padded_getD (c : Cfg) (ls : List Nat) {i : Nat} (h : i < ls.length) :
    (padded c ls).getD i 0 = ls.getD i 0 := by
  unfold padded
  exact List.getD_append _ _ _ _ h

/-- Reading a window that lies inside the preserved prefix of the inline
buffer gives the same bytes after the tail is overwritten. -/
theorem take_drop_window (data tail : List Nat) (m o l : Nat) (hm : m ≤ data.length)
    (hol : o + l ≤ m) :
    ((data.take m ++ tail).drop o).take l = (data.drop o).take l := by
  rw [List.drop_append_of_le_length (by rw [List.length_take]; omega),
    List.take_append_of_le_length (by rw [List.length_drop, List.length_take]; omega),
    List.drop_take, List.take_take, Nat.min_eq_left (by omega)]

theorem sumb_drop_le (xs : List Nat) (n : Nat) : sumb (xs.drop n) ≤ sumb xs := by
  conv_rhs => rw [← List.take_append_drop n xs]
  rw [sumb_append]
  omega

/-- `mustmove` is the first index whose cumulative inline end crosses
`sizeof datasmol` (`Maxstrings` when none does). -/
theorem transScan_first (c : Cfg) :
    ∀ (ds : List Nat) (i tot ex : Nat), tot ≤ c.smol →
      i + ds.length ≤ c.Maxstrings →
      ((transScan c ds i tot c.Maxstrings ex).1 = c.Maxstrings ∧
        ∀ j, j < ds.length → tot + sumb (ds.take (j + 1)) ≤ c.smol) ∨
      (i ≤ (transScan c ds i tot c.Maxstrings ex).1 ∧
        (transScan c ds i tot c.Maxstrings ex).1 - i < ds.length ∧
        (∀ j, j < (transScan c ds i tot c.Maxstrings ex).1 - i →
          tot + sumb (ds.take (j + 1)) ≤ c.smol) ∧
        c.smol < tot + sumb (ds.take ((transScan c ds i tot c.Maxstrings ex).1 - i + 1))) := by
  intro ds
  induction ds with
  | nil =>
    intro i tot ex htot _
    left
    constructor
    · simp [transScan]
    · intro j hj
      simp at hj
  | cons l r ih =>
    intro i tot ex htot hroom
    have hiM : i < c.Maxstrings := by
      simp only [List.length_cons] at hroom
      omega
    by_cases hcross : tot + l + 1 > c.smol
    · -- first crossing is here
      right
      have hpost := transScan_post c r (i + 1) (tot + l + 1) i (ex + (l + 1 + 8))
        (by omega) (by omega)
      have heval : transScan c (l :: r) i tot c.Maxstrings ex =
          (i, ex + (l + 1 + 8) + (sumb r + 8 * r.length)) := by
        simp only [transScan]
        rw [if_pos hcross]
        simp only [eq_self_iff_true, if_true]
        exact hpost
      rw [heval]
      refine ⟨Nat.le_refl i, by simp, ?_, ?_⟩
      · intro j hj
        omega
      · rw [Nat.sub_self]
        show c.smol < tot + sumb (List.take 1 (l :: r))
        simp [sumb]
        omega
    · -- no crossing at `i`: recurse
      have heval : transScan c (l :: r) i tot c.Maxstrings ex =
          transScan c r (i + 1) (tot + l + 1) c.Maxstrings ex := by
        simp only [transScan]
        rw [if_neg hcross]
      rw [heval]
      rcases ih (i + 1) (tot + l + 1) ex (by omega)
        (by simp only [List.length_cons] at hroom; omega) with ⟨h1, h2⟩ | ⟨h1, h2, h3, h4⟩
      · left
        refine ⟨h1, ?_⟩
        intro j hj
        cases j with
        | zero =>
          show tot + sumb (List.take 1 (l :: r)) ≤ c.smol
          simp [sumb]
          omega
        | succ j =>
          have := h2 j (by simp only [List.length_cons] at hj; omega)
          rw [List.take_succ_cons]
          simp only [sumb]
          omega
      · right
        set m2 := (transScan c r (i + 1) (tot + l + 1) c.Maxstrings ex).1 with hm2
        refine ⟨by omega, ?_, ?_, ?_⟩
        · simp only [List.length_cons]
          omega
        · intro j hj
          cases j with
          | zero =>
            show tot + sumb (List.take 1 (l :: r)) ≤ c.smol
            simp [sumb]
            omega
          | succ j =>
            have := h3 j (by omega)
            rw [List.take_succ_cons]
            simp only [sumb]
            omega
        · have e : m2 - i + 1 = (m2 - (i + 1) + 1) + 1 := by omega
          rw [e, List.take_succ_cons]
          simp only [sumb]
          omega

theorem sumb_take_succ (ls : List Nat) {i : Nat} (h : i < ls.length) :
    sumb (ls.take (i + 1)) = sumb (ls.take i) + (ls.getD i 0 + 1) := by
  rw [List.take_succ, sumb_append, List.getElem?_eq_getElem h,
    List.getD_eq_getElem?_getD, List.getElem?_eq_getElem h]
  simp [sumb]

theorem getD_take (ls : List Nat) {i mm : Nat} (h : i < mm) :
    (ls.take mm).getD i 0 = ls.getD i 0 := by
  rw [List.getD_eq_getElem?_getD, List.getD_eq_getElem?_getD,
    List.getElem?_take_of_lt h]

/-- The inline fast path of `push_back`, fully evaluated: write the new
field, append the bytes and a NUL at `usize`. -/
theorem pushBack_inline_eq (c : Cfg) (hc : c.valid) {st : Ssv} {ls : List Nat}
    (s junk : List Nat) (allocOk : Bool)
    (hl : st.lengths = encodeLens c ls) (hlen : ls.length ≤ c.Maxstrings)
    (hmem : ∀ l ∈ ls, l ≤ c.B) (hsum : sumb ls ≤ c.B)
    (hip : st.inplace = true)
    (hfit : ls.length < c.Maxstrings ∧ sumb ls + s.length + 1 ≤ c.B) :
    pushBack c st s allocOk junk = .ok
      { st with
        lengths := encodeLens c (ls ++ [s.length]),
        data := st.data.take (sumb ls) ++ s ++ [0] ++
          st.data.drop (sumb ls + s.length + 1) } := by
  have hW : c.W ≤ 64 := hc.2.2.2.2.2
  have hdec := @inv_decode c hc st ls hl hlen hmem hsum
  rw [pushBack, hdec, if_pos hip]
  simp only
  rw [if_pos hfit, hl,
    write_encode c hW ls s.length hfit.1 (mem_two_pow_of_le_B c hmem)
      (by have := c.lt_two_pow_bits; omega)]

/-- The inline strings moved to the spill at the transition: indices
`mm, …, nfields − 1`, each read from the inline buffer at its offset. -/
def movedOf (st : Ssv) (ls : List Nat) (mm : Nat) : List (List Nat) :=
  (List.range' mm (ls.length - mm)).map fun i =>
    (st.data.drop (sumb (ls.take i))).take (ls.getD i 0)

/-- The inline-to-spill transition of `push_back`, fully evaluated (with a
successful allocation and a transfer far from the `size_t` wrap). -/
theorem pushBack_transition_eq (c : Cfg) (hc : c.valid) {st : Ssv} {ls : List Nat}
    (s junk : List Nat)
    (hl : st.lengths = encodeLens c ls) (hlen : ls.length ≤ c.Maxstrings)
    (hmem : ∀ l ∈ ls, l ≤ c.B) (hsum : sumb ls ≤ c.B)
    (hip : st.inplace = true)
    (hcond : ¬(ls.length < c.Maxstrings ∧ sumb ls + s.length + 1 ≤ c.B))
    (hs : s.length + 1000 ≤ 2 ^ 64) :
    ∃ mm ex,
      transScan c ls 0 0 c.Maxstrings 0 = (mm, ex) ∧
      ex = sumb (ls.drop mm) + 8 * (ls.length - mm) ∧
      sumb (ls.take mm) ≤ c.smol ∧
      (mm = c.Maxstrings ∨ mm < ls.length) ∧
      pushBack c st s true junk = .ok
        { inplace := false,
          lengths := retireIter c st.lengths mm (ls.length - mm),
          data := st.data.take c.smol ++ junk,
          heap := some ⟨align8 (if s.length + 1 + 8 + 16 + ex < c.sizeofSsv
              then c.sizeofSsv else s.length + 1 + 8 + 16 + ex),
            (movedOf st ls mm).length + 1,
            offsAux 0 (movedOf st ls mm ++ [s]),
            nulcat (movedOf st ls mm ++ [s])⟩ } := by
  have hW : c.W ≤ 64 := hc.2.2.2.2.2
  have hB : 8 ≤ c.B := hc.1
  have hB254 : c.B ≤ 254 := hc.2.1
  have hM63 : c.Maxstrings ≤ 63 := c.Maxstrings_le (by omega) hW
  have hdec := @inv_decode c hc st ls hl hlen hmem hsum
  obtain ⟨mm, ex, heq, hex, hpre, hcase⟩ := transScan_facts c ls hlen
  have hdropB : sumb (ls.drop mm) ≤ c.B := Nat.le_trans (sumb_drop_le ls mm) hsum
  have hexB : ex ≤ c.B + 8 * 63 := by
    rw [hex]
    have hl63 : ls.length ≤ 63 := Nat.le_trans hlen hM63
    omega
  have hszsz : c.sizeofSsv ≤ 272 := by
    unfold Cfg.sizeofSsv align8
    omega
  have hguard : ¬ 2 ^ 64 - 8 <
      (if s.length + 1 + 8 + 16 + ex < c.sizeofSsv then c.sizeofSsv
       else s.length + 1 + 8 + 16 + ex) := by
    split <;> omega
  refine ⟨mm, ex, heq, hex, hpre, hcase, ?_⟩
  rw [pushBack, hdec, if_pos hip]
  simp only
  rw [if_neg hcond, padded_take_nfields c ls, heq]
  simp only [Bool.true_eq_false, if_false, if_neg hguard]
  have hmlt : (movedOf st ls mm).length < 2 ^ 64 := by
    unfold movedOf
    rw [length_moved]
    omega
  have hbuild := buildHeap_normal (align8 (if s.length + 1 + 8 + 16 + ex < c.sizeofSsv
      then c.sizeofSsv else s.length + 1 + 8 + 16 + ex)) (movedOf st ls mm) hmlt
  have happ := appendD_normal
    (align8 (if s.length + 1 + 8 + 16 + ex < c.sizeofSsv
      then c.sizeofSsv else s.length + 1 + 8 + 16 + ex))
    (movedOf st ls mm).length (movedOf st ls mm) s rfl
    (by unfold movedOf at hmlt ⊢; rw [length_moved] at hmlt ⊢; omega)
  unfold movedOf at hbuild happ
  unfold movedOf
  rw [hbuild, happ]

instance : DecidableEq (Except Err (List Nat)) := fun
  | .error a, .error b =>
    if h : a = b then .isTrue (by rw [h])
    else .isFalse (by intro hc; injection hc; contradiction)
  | .error _, .ok _ => .isFalse (by intro hc; exact Except.noConfusion hc)
  | .ok _, .error _ => .isFalse (by intro hc; exact Except.noConfusion hc)
  | .ok a, .ok b =>
    if h : a = b then .isTrue (by rw [h])
    else .isFalse (by intro hc; injection hc; contradiction)

/-! ## The claims -/

/-- C1: the claim asserts `v[i]` for `i < size()` is the `i`-th *surviving*
append.  Refuted by the code: after pushing "a"×120 (spilling), "b" and
"c", `resize(1)` leaves `size() = 2` (the buggy `over-decrement` keeps two
spill strings), and `v[1]` still returns "b" — an element the resize
should have removed, so the surviving sequence (just "a"×120) has no
index-1 entry. -/
theorem C1_index_after_resize_bug :
    Reach dflt stA4 ∧ sizeFn dflt stA4 = 2 ∧ getIx? dflt stA4 1 = some [98] :=
  ⟨reach_stA4, by decide, by decide⟩

/-- C2: the claim asserts the payload and offset array never overlap, in
particular after any `push_back` onto a spill, the one-time capacity
doubling sufficing.  Refuted: on the reachable spill of capacity 152
holding "a"×120, pushing a 200-byte string doubles the capacity once to
304, but header (16) + payload (121 + 201) + offsets (8·2) = 354 > 304 —
`heapvec::append` then writes past the block (modelled `.ub`). -/
theorem C2_spill_overlap_bug :
    Reach dflt stA1 ∧ Option.map Heapvec.capacity stA1.heap = some 152 ∧
      pushBack dflt stA1 (List.replicate 200 98) true junk8 = .ub ∧
      152 * 2 < 16 + (121 + (200 + 1)) + 8 * 2 :=
  ⟨reach_stA1, by decide, by decide, by decide⟩

/-- C3: the claim asserts `resize(n)` gives `size() = n` (spill count
`n − Ninline`).  Refuted: the code runs `heap->nstrings -= idx - onstack`
instead of an assignment, so on a spill of 3 strings (`nfields = 0`),
`resize(1)` decrements the count by 1 and leaves `size() = 2`, not 1. -/
theorem C3_resize_size_bug :
    Reach dflt stA3 ∧ sizeFn dflt stA3 = 3 ∧
      resizeOp dflt stA3 1 = .ok stA4 ∧ sizeFn dflt stA4 = 2 :=
  ⟨reach_stA3, by decide, by decide, by decide⟩

/-- C4 counterexample: on the reachable state whose spill count has
underflowed (push "a"; push "b"×119 to spill; pop twice — the second pop
decrements the empty spill's `u64` count), `size() = 0` yet `at(0)`
returns "a" instead of failing with `OutOfRange`. -/
theorem C4_at_wrapped_cex :
    Reach dflt stB4 ∧ sizeFn dflt stB4 = 0 ∧
      atFn? dflt stB4 0 = some (Except.ok [97]) :=
  ⟨reach_stB4, by decide, by decide⟩

/-- C4 (amended): for every reachable SSV whose spill count has not
underflowed (`spillCountSane` — `pop_back` was never applied while the
spill was already empty), `at(i)` returns a string exactly when
`i < size()` and fails with `OutOfRange` exactly when `i ≥ size()`; the
state is never touched (`at` is a `const` read). -/
theorem C4_at_range_amended (c : Cfg) (hc : c.valid) {st : Ssv} (hr : Reach c st)
    (hsane : spillCountSane st) (i : Nat) :
    ((∃ s, atFn? c st i = some (Except.ok s)) ↔ i < sizeFn c st) ∧
    (atFn? c st i = some (Except.error Err.outOfRange) ↔ sizeFn c st ≤ i) := by
  obtain ⟨ls, hl, hlen, hmem, hsum, hip1, hip0⟩ := reach_inv c hc hr
  have hB : 8 ≤ c.B := hc.1
  have hW : c.W ≤ 64 := hc.2.2.2.2.2
  have hM63 : c.Maxstrings ≤ 63 := c.Maxstrings_le (by omega) hW
  have hdec := inv_decode c hc hl hlen hmem hsum
  by_cases hip : st.inplace = true
  · have hszv : sizeFn c st = ls.length := by simp [sizeFn, hdec, hip]
    rw [hszv]
    unfold atFn?
    rw [hdec]
    simp only
    by_cases hi : i < ls.length
    · rw [if_pos hi]
      unfold getIx?
      rw [hdec]
      simp only
      rw [if_pos hi]
      exact ⟨⟨fun _ => hi, fun _ => ⟨_, rfl⟩⟩,
             ⟨fun hcontra => by simp at hcontra, fun hle => by omega⟩⟩
    · rw [if_neg hi, if_neg (by simp [hip])]
      exact ⟨⟨fun hex => by obtain ⟨s, hs⟩ := hex; simp at hs, fun hlt => absurd hlt hi⟩,
             ⟨fun _ => by omega, fun _ => rfl⟩⟩
  · have hipf : st.inplace = false := by simpa using hip
    obtain ⟨hsmol, h, hheap, hcap, hshape⟩ := hip0 hipf
    obtain ⟨cap, ns, offs, pay⟩ := h
    unfold capOK at hcap
    dsimp only at hcap
    obtain ⟨hcap8, hcapsz, hcap64⟩ := hcap
    rcases hshape with ⟨ss, hoffs, hpay, hns, hsep⟩ | ⟨hoffs, hpay, k, hk1, hk2, hkns⟩
    · dsimp only at hoffs hpay hns hsep
      subst hoffs hpay hns
      have hss64 : ss.length < 2 ^ 64 := by omega
      have hszv : sizeFn c st = ls.length + ss.length := by
        simp only [sizeFn, hdec, hipf, hheap, Bool.false_eq_true, if_false]
        exact w64_eq_of_lt (by omega)
      rw [hszv]
      unfold atFn?
      rw [hdec]
      simp only
      by_cases hi : i < ls.length
      · rw [if_pos hi]
        unfold getIx?
        rw [hdec]
        simp only
        rw [if_pos hi]
        exact ⟨⟨fun _ => by omega, fun _ => ⟨_, rfl⟩⟩,
               ⟨fun hcontra => by simp at hcontra, fun hle => by omega⟩⟩
      · rw [if_neg hi, if_pos hipf, hheap]
        simp only
        by_cases hi2 : i - ls.length < ss.length
        · rw [if_pos hi2, heapGet_normal cap ss.length ss _ hi2,
            List.get?_eq_get hi2]
          exact ⟨⟨fun _ => by omega, fun _ => ⟨_, rfl⟩⟩,
                 ⟨fun hcontra => by simp at hcontra, fun hle => by omega⟩⟩
        · rw [if_neg hi2]
          exact ⟨⟨fun hex => by obtain ⟨s, hs⟩ := hex; simp at hs, fun hlt => by omega⟩,
                 ⟨fun _ => by omega, fun _ => rfl⟩⟩
    · dsimp only at hoffs hpay hkns
      subst hkns
      have hk63 : k ≤ 63 := Nat.le_trans hk2 (Nat.le_trans hlen hM63)
      have hcount := hsane _ hheap
      dsimp only at hcount
      exact absurd hcount (by omega)

/-- C4 witness: the amended theorem evaluated on the freshly constructed
empty SSV at index 0. -/
theorem C4_at_range_amended_witness :
    ((∃ s, atFn? dflt (emptySsv dflt) 0 = some (Except.ok s)) ↔
      0 < sizeFn dflt (emptySsv dflt)) ∧
    (atFn? dflt (emptySsv dflt) 0 = some (Except.error Err.outOfRange) ↔
      sizeFn dflt (emptySsv dflt) ≤ 0) :=
  C4_at_range_amended dflt dflt_valid Reach.init
    (fun _ hh => Option.noConfusion hh) 0

/-- C7 counterexample: the first spill block of the chain pushing "a"×120
has capacity 152 = `align8(120 + 1 + 8 + 16 + sizeof(heapvec))` — a
multiple of 8 and ≥ `sizeof(ssv)` = 128, but not a power of two (the code
has no rounding to powers of two). -/
theorem C7_capacity_pow2_cex :
    Reach dflt stA1 ∧ isinplaceFn stA1 = false ∧
      Option.map Heapvec.capacity stA1.heap = some 152 ∧
      ∀ k : Nat, 2 ^ k ≠ 152 := by
  refine ⟨reach_stA1, by decide, by decide, ?_⟩
  intro k
  rcases Nat.lt_or_ge k 8 with hk | hk
  · have h1 : 2 ^ k ≤ 2 ^ 7 := Nat.pow_le_pow_right (by omega) (by omega)
    have h2 : (2 : Nat) ^ 7 = 128 := by norm_num
    omega
  · have h1 : 2 ^ 8 ≤ 2 ^ k := Nat.pow_le_pow_right (by omega) hk
    have h2 : (2 : Nat) ^ 8 = 256 := by norm_num
    omega

/-- C7 (amended): every reachable spilled SSV owns a block whose capacity
is a multiple of 8 (keeping the reverse-indexed `u64` offset array
aligned), at least `sizeof(ssv)`, and below `2^64` — but not necessarily a
power of two. -/
theorem C7_capacity_amended (c : Cfg) (hc : c.valid) {st : Ssv} (hr : Reach c st)
    (hip : isinplaceFn st = false) :
    ∃ h, st.heap = some h ∧ h.capacity % 8 = 0 ∧ c.sizeofSsv ≤ h.capacity ∧
      h.capacity < 2 ^ 64 := by
  obtain ⟨ls, hl, hlen, hmem, hsum, hip1, hip0⟩ := reach_inv c hc hr
  obtain ⟨hsmol, h, hheap, hcap, hshape⟩ := hip0 hip
  exact ⟨h, hheap, hcap.1, hcap.2.1, hcap.2.2⟩

/-- C7 witness: the amended theorem on the concrete capacity-152 block. -/
theorem C7_capacity_amended_witness :
    ∃ h, stA1.heap = some h ∧ h.capacity % 8 = 0 ∧ dflt.sizeofSsv ≤ h.capacity ∧
      h.capacity < 2 ^ 64 :=
  C7_capacity_amended dflt dflt_valid reach_stA1 (by decide)

/-- C9 counterexample: move assignment is an element-wise swap, so after
`dst = std::move(src)` with a one-string `dst` and an empty `src`, the
moved-from object holds `dst`'s former contents: its `size()` is 1 and
`empty()` is false — not an empty-equivalent state. -/
theorem C9_moved_from_not_empty_cex :
    Reach dflt stB1 ∧ sizeFn dflt ((moveAssignOp stB1 (emptySsv dflt)).2) = 1 ∧
      emptyFn dflt ((moveAssignOp stB1 (emptySsv dflt)).2) = false :=
  ⟨reach_stB1, by decide, by decide⟩

/-- C9 (amended): move construction and move assignment transfer the full
contents (the destination *is* the source's pre-move value, so `size()`,
`fullsize()` and every element transfer); both leave the moved-from object
destructible without double-freeing — the moved-from of an assignment owns
exactly the destination's former block (the swap exchanges ownership), the
moved-from of a construction owns nothing (zeroed pointer slot).  The
moved-from of an assignment holds the destination's former value, which
need not be empty. -/
theorem C9_move_amended :
    ∀ (dst src : Ssv) (c : Cfg) (jIn : Bool) (jLen : Nat),
      (moveAssignOp dst src).1 = src ∧
      (moveAssignOp dst src).2 = dst ∧
      dtorFrees (moveAssignOp dst src).1 = dtorFrees src ∧
      dtorFrees (moveAssignOp dst src).2 = dtorFrees dst ∧
      (moveCtorOp c jIn jLen src).1 = src ∧
      dtorFrees (moveCtorOp c jIn jLen src).2 = none := by
  intro dst src c jIn jLen
  refine ⟨rfl, rfl, rfl, rfl, rfl, ?_⟩
  cases jIn <;> rfl

/-- C6: allocation failure during `push_back` — at the inline-to-spill
transition or when growing an existing spill — raises `Allocation`, and
the state at the throw is the pre-call state itself: `size()`,
`fullsize()`, `isinplace()` and every element retain their values (the
code throws before mutating anything). -/
theorem C6_alloc_failure_unchanged (c : Cfg) (st : Ssv) (s junk : List Nat)
    {e : Err} {st' : Ssv}
    (hstep : pushBack c st s false junk = .ex e st') :
    e = Err.allocation ∧ st' = st ∧ sizeFn c st' = sizeFn c st ∧
      fullsizeFn? c st' = fullsizeFn? c st ∧ isinplaceFn st' = isinplaceFn st ∧
      ∀ i, getIx? c st' i = getIx? c st i := by
  by_cases hip : st.inplace = true
  · rw [pushBack, if_pos hip] at hstep
    simp only at hstep
    split at hstep
    · exact absurd hstep (by simp)
    · simp only [eq_self_iff_true, if_true] at hstep
      injection hstep with h1 h2
      subst h1
      subst h2
      exact ⟨rfl, rfl, rfl, rfl, rfl, fun i => rfl⟩
  · have hipf : st.inplace = false := by simpa using hip
    rw [pushBack, hipf] at hstep
    simp only [Bool.false_eq_true, if_false] at hstep
    split at hstep
    · exact absurd hstep (by simp)
    split at hstep
    · exact absurd hstep (by simp)
    split at hstep
    · simp only [eq_self_iff_true, if_true] at hstep
      injection hstep with h1 h2
      subst h1
      subst h2
      exact ⟨rfl, rfl, rfl, rfl, rfl, fun i => rfl⟩
    · exact absurd hstep (by simp)

/-- C6 witness: growing the capacity-152 spill under a failed `calloc`. -/
theorem C6_alloc_failure_unchanged_witness :
    Err.allocation = Err.allocation ∧ stA1 = stA1 ∧
      sizeFn dflt stA1 = sizeFn dflt stA1 ∧
      fullsizeFn? dflt stA1 = fullsizeFn? dflt stA1 ∧
      isinplaceFn stA1 = isinplaceFn stA1 ∧
      ∀ i, getIx? dflt stA1 i = getIx? dflt stA1 i :=
  @C6_alloc_failure_unchanged dflt stA1 (List.replicate 200 98) junk8
    Err.allocation stA1 (by decide)

/-- C8: on a fresh empty SSV, a single push of `B − 1` bytes stays inline
with `fullsize() = B` (the bytes plus one NUL), while a single push of `B`
bytes takes the spill transition and gives `fullsize() = B + 1`. -/
theorem C8_inline_boundary (c : Cfg) (hc : c.valid) (s1 s2 junk : List Nat)
    (allocOk : Bool) (h1 : s1.length = c.B - 1) (h2 : s2.length = c.B) :
    (∃ st', pushBack c (emptySsv c) s1 allocOk junk = .ok st' ∧
      isinplaceFn st' = true ∧ fullsizeFn? c st' = some c.B) ∧
    (∃ st'', pushBack c (emptySsv c) s2 true junk = .ok st'' ∧
      isinplaceFn st'' = false ∧ fullsizeFn? c st'' = some (c.B + 1)) := by
  have hB : 8 ≤ c.B := hc.1
  have hB254 : c.B ≤ 254 := hc.2.1
  have hBm : c.B < c.mask := hc.2.2.1
  have hM : 1 ≤ c.Maxstrings := hc.2.2.2.1
  have hW : c.W ≤ 64 := hc.2.2.2.2.2
  have hl0 : (emptySsv c).lengths = encodeLens c [] := (encodeLens_nil c).symm
  have hmem0 : ∀ l ∈ ([] : List Nat), l ≤ c.B := by simp
  have hsum0 : sumb [] ≤ c.B := Nat.zero_le _
  have hlen0 : ([] : List Nat).length ≤ c.Maxstrings := by simp
  have hdec0 := @inv_decode c hc (emptySsv c) [] hl0 hlen0 hmem0 hsum0
  constructor
  · -- length B − 1: the inline fast path
    have hstep := pushBack_inline_eq c hc s1 junk allocOk hl0 hlen0 hmem0 hsum0 rfl
      ⟨by simpa using hM, by simp only [sumb]; omega⟩
    refine ⟨_, hstep, rfl, ?_⟩
    have hd1 := inplace_decode_encodeLens c [s1.length]
      (by simpa using hM)
      (by intro l hml; rw [List.mem_singleton.mp hml]; omega)
      (by simp only [sumb]; omega)
    show some (inplace_decode c (encodeLens c ([] ++ [s1.length]))).usize = some c.B
    rw [List.nil_append, hd1]
    show some (sumb [s1.length]) = some c.B
    rw [show sumb [s1.length] = c.B by simp only [sumb]; omega]
  · -- length B: the spill transition
    obtain ⟨mm, ex, heq, hex, hpre, hcase, hstep⟩ :=
      pushBack_transition_eq c hc s2 junk hl0 hlen0 hmem0 hsum0 rfl
        (by
          rintro ⟨_, hcon⟩
          simp only [sumb] at hcon
          omega)
        (by omega)
    have hmv : movedOf (emptySsv c) [] mm = [] := by
      unfold movedOf
      simp
    rw [hmv] at hstep
    have e1 : ([] : List Nat).length - mm = 0 := by simp
    rw [e1] at hstep
    rw [show retireIter c (emptySsv c).lengths mm 0 = (emptySsv c).lengths from rfl]
      at hstep
    refine ⟨_, hstep, rfl, ?_⟩
    simp only [fullsizeFn?, Bool.false_eq_true, if_false, hdec0]
    simp only [List.nil_append, List.length_nil]
    unfold Heapvec.fullsize?
    simp only [offsAux, Nat.zero_add]
    rw [if_neg (by omega : ¬ (0 + 1 = 0))]
    simp only [Nat.add_sub_cancel, List.get?]
    show some (w64 (0 + (s2.length + 1))) = some (c.B + 1)
    rw [show w64 (0 + (s2.length + 1)) = c.B + 1 from by
      unfold w64
      rw [h2]
      rw [Nat.zero_add]
      exact Nat.mod_eq_of_lt (by omega)]

/-- C8 witness: the boundary pushes at the default configuration
(`B = 120`), lengths 119 and 120. -/
theorem C8_inline_boundary_witness :
    (∃ st', pushBack dflt (emptySsv dflt) (List.replicate 119 97) true junk8 = .ok st' ∧
      isinplaceFn st' = true ∧ fullsizeFn? dflt st' = some dflt.B) ∧
    (∃ st'', pushBack dflt (emptySsv dflt) (List.replicate 120 97) true junk8 = .ok st'' ∧
      isinplaceFn st'' = false ∧ fullsizeFn? dflt st'' = some (dflt.B + 1)) :=
  C8_inline_boundary dflt dflt_valid (List.replicate 119 97) (List.replicate 120 97)
    junk8 true (by decide) (by decide)

/-- C5: on an inline SSV that cannot take the fast path, `push_back`
spills: `inplace` becomes 0; `mustmove` is the first inline index whose
cumulative byte end `o + l + 1` crosses `B − 8` (`Maxstrings` if none
does); the bitmap retains exactly the fields below `mustmove`; the new
block holds, in order, the old inline strings `mustmove … nfields − 1`
followed by `s`; and every element reads back as the old sequence with
`s` appended. -/
theorem C5_transition_characterization (c : Cfg) (hc : c.valid) {st : Ssv}
    {ls : List Nat} (s junk : List Nat)
    (hl : st.lengths = encodeLens c ls) (hlen : ls.length ≤ c.Maxstrings)
    (hmem : ∀ l ∈ ls, l ≤ c.B) (hsum : sumb ls ≤ c.B)
    (hip : st.inplace = true) (hdata : c.smol ≤ st.data.length)
    (hcond : ¬(ls.length < c.Maxstrings ∧ sumb ls + s.length + 1 ≤ c.B))
    (hs : s.length + 1000 ≤ 2 ^ 64) :
    ∃ st' mm,
      pushBack c st s true junk = .ok st' ∧
      (∀ j, j < mm → j < ls.length → sumb (ls.take (j + 1)) ≤ c.smol) ∧
      (mm < ls.length → c.smol < sumb (ls.take (mm + 1))) ∧
      (mm = c.Maxstrings ∨ mm < ls.length) ∧
      isinplaceFn st' = false ∧
      st'.lengths = encodeLens c (ls.take mm) ∧
      (∃ h, st'.heap = some h ∧
        h.offsets = offsAux 0 (movedOf st ls mm ++ [s]) ∧
        h.payload = nulcat (movedOf st ls mm ++ [s]) ∧
        h.nstrings = (movedOf st ls mm ++ [s]).length) ∧
      (∀ i, i < ls.length → getIx? c st' i = getIx? c st i) ∧
      getIx? c st' ls.length = some s := by
  have hW : c.W ≤ 64 := hc.2.2.2.2.2
  have hB : 8 ≤ c.B := hc.1
  have hB254 : c.B ≤ 254 := hc.2.1
  have hBm : c.B < c.mask := hc.2.2.1
  have hM63 : c.Maxstrings ≤ 63 := c.Maxstrings_le (by omega) hW
  have hdec := @inv_decode c hc st ls hl hlen hmem hsum
  obtain ⟨mm, ex, heq, hex, hpre, hcase, hstep⟩ :=
    pushBack_transition_eq c hc s junk hl hlen hmem hsum hip hcond hs
  have hfirst := transScan_first c ls 0 0 0 (Nat.zero_le _) (by simpa using hlen)
  rw [heq] at hfirst
  simp only [Nat.sub_zero, Nat.zero_add] at hfirst
  have hbefore : ∀ j, j < mm → j < ls.length → sumb (ls.take (j + 1)) ≤ c.smol := by
    rcases hfirst with ⟨_, hall⟩ | ⟨_, _, hall, _⟩
    · intro j _ hj2
      exact hall j hj2
    · intro j hj _
      exact hall j hj
  have hcrossAt : mm < ls.length → c.smol < sumb (ls.take (mm + 1)) := by
    rcases hfirst with ⟨hmax, _⟩ | ⟨_, _, _, hcross⟩
    · intro hlt
      rw [hmax] at hlt
      omega
    · intro _
      exact hcross
  set L' := ls.take mm with hLdef
  set M := movedOf st ls mm with hMdef
  have hlen' : L'.length = min mm ls.length := by
    rw [hLdef, List.length_take]
  have hMlen : M.length = ls.length - mm := by
    rw [hMdef]
    unfold movedOf
    exact length_moved _ _ _ _
  have hretire : retireIter c st.lengths mm (ls.length - mm) = encodeLens c L' := by
    rw [hl]
    exact retireIter_encode c hW (ls.length - mm) ls mm (by omega)
      (by rcases hcase with h | h <;> omega) (mem_two_pow_of_le_B c hmem)
  have hd' : inplace_decode c (encodeLens c L') = ⟨L'.length, sumb L', padded c L'⟩ :=
    inplace_decode_encodeLens c L'
      (by rw [hlen']; omega)
      (fun l hm => Nat.lt_of_le_of_lt (hmem l (List.take_subset _ _ hm)) hBm)
      (by have := sumb_take_le ls mm; rw [hLdef]; omega)
  refine ⟨_, mm, hstep, hbefore, hcrossAt, hcase, rfl, ?_, ?_, ?_, ?_⟩
  · show retireIter c st.lengths mm (ls.length - mm) = _
    rw [hretire, hLdef]
  · exact ⟨_, rfl, rfl, rfl, by simp⟩
  · intro i hi
    unfold getIx? inlineOff
    simp only
    rw [hretire, hd', hdec]
    simp only
    by_cases him : i < L'.length
    · rw [if_pos him, if_pos hi,
        padded_take_le c L' (Nat.le_of_lt him), padded_getD c L' him,
        padded_take_le c ls (Nat.le_of_lt hi), padded_getD c ls hi, hLdef,
        List.take_take, Nat.min_eq_left (by rw [hlen'] at him; omega),
        getD_take ls (show i < mm by rw [hlen'] at him; omega)]
      have hwin := take_drop_window st.data junk c.smol (sumb (ls.take i))
        (ls.getD i 0) hdata
        (by
          have hj := hbefore i (by rw [hlen'] at him; omega) hi
          have hsucc := sumb_take_succ ls hi
          omega)
      rw [hwin]
    · rw [if_neg him, if_pos hi]
      have hmmlt : mm < ls.length := by
        rw [hlen'] at him
        omega
      have hLlen : L'.length = mm := by
        rw [hlen']
        omega
      rw [hLlen]
      rw [heapGet_normal _ (M.length + 1) (M ++ [s]) (i - mm)
        (by simp only [List.length_append, List.length_cons, List.length_nil]; omega)]
      rw [List.get?_append (by rw [hMlen]; rw [hlen'] at him; omega)]
      rw [hMdef]
      unfold movedOf
      rw [List.get?_map, List.get?_eq_getElem?,
        List.getElem?_range' mm 1 (show i - mm < ls.length - mm from by
          rw [hlen'] at him; omega)]
      simp only [Option.map_some']
      rw [padded_take_le c ls (Nat.le_of_lt hi), padded_getD c ls hi,
        show mm + 1 * (i - mm) = i from by rw [hlen'] at him; omega]
  · unfold getIx? inlineOff
    simp only
    rw [hretire, hd']
    simp only
    rw [if_neg (by rw [hlen']; omega : ¬ ls.length < L'.length)]
    by_cases hmm2 : mm < ls.length
    · have hLlen : L'.length = mm := by
        rw [hlen']
        omega
      rw [hLlen]
      rw [heapGet_normal _ (M.length + 1) (M ++ [s]) (ls.length - mm)
        (by simp only [List.length_append, List.length_cons, List.length_nil]; omega)]
      rw [show ls.length - mm = M.length from by rw [hMlen]]
      rw [List.get?_concat_length]
    · have hLlen : L'.length = ls.length := by
        rw [hlen']
        omega
      rw [hLlen, Nat.sub_self]
      have hM0 : M = [] := by
        rw [hMdef]
        unfold movedOf
        rw [show ls.length - mm = 0 from by omega]
        simp
      rw [hM0]
      rw [heapGet_normal _ (([] : List (List Nat)).length + 1) ([] ++ [s]) 0 (by simp)]
      simp

/-- C5 witness: the transition theorem evaluated on the empty default SSV
pushing a 120-byte string (the fast path needs 121 > 120 bytes). -/
theorem C5_transition_characterization_witness :
    ∃ st' mm,
      pushBack dflt (emptySsv dflt) (List.replicate 120 97) true junk8 = .ok st' ∧
      (∀ j, j < mm → j < ([] : List Nat).length →
        sumb (([] : List Nat).take (j + 1)) ≤ dflt.smol) ∧
      (mm < ([] : List Nat).length →
        dflt.smol < sumb (([] : List Nat).take (mm + 1))) ∧
      (mm = dflt.Maxstrings ∨ mm < ([] : List Nat).length) ∧
      isinplaceFn st' = false ∧
      st'.lengths = encodeLens dflt (([] : List Nat).take mm) ∧
      (∃ h, st'.heap = some h ∧
        h.offsets = offsAux 0 (movedOf (emptySsv dflt) [] mm ++ [List.replicate 120 97]) ∧
        h.payload = nulcat (movedOf (emptySsv dflt) [] mm ++ [List.replicate 120 97]) ∧
        h.nstrings = (movedOf (emptySsv dflt) [] mm ++ [List.replicate 120 97]).length) ∧
      (∀ i, i < ([] : List Nat).length →
        getIx? dflt st' i = getIx? dflt (emptySsv dflt) i) ∧
      getIx? dflt st' ([] : List Nat).length = some (List.replicate 120 97) :=
  @C5_transition_characterization dflt dflt_valid (emptySsv dflt) []
    (List.replicate 120 97) junk8
    (by decide) (by decide) (by simp) (by decide) (by decide) (by decide)
    (by decide) (by decide)

/-- C10 counterexample: push "a" (inline), push "b"×119 (spills), pop once
— the spill count returns to 0 while "a" is still stored inline.  `empty()`
tests only `heap->nstrings == 0` and returns true although `size() = 1`. -/
theorem C10_empty_nonzero_cex :
    Reach dflt stB3 ∧ emptyFn dflt stB3 = true ∧ sizeFn dflt stB3 = 1 :=
  ⟨reach_stB3, by decide, by decide⟩

/-- C10 (amended): for every reachable *inline* SSV, `empty()` is true
exactly when `size() = 0`.  (Once spilled, `empty()` tests only the spill
count and can disagree with `size()`.) -/
theorem C10_empty_amended (c : Cfg) (hc : c.valid) {st : Ssv} (hr : Reach c st)
    (hip : isinplaceFn st = true) : emptyFn c st = true ↔ sizeFn c st = 0 := by
  obtain ⟨ls, hl, hlen, hmem, hsum, hip1, hip0⟩ := reach_inv c hc hr
  have hB : 8 ≤ c.B := hc.1
  have hhead := encodeLens_and_mask c hc.2.2.2.1 ls (mem_two_pow_of_le_B c hmem)
  have hdec := inv_decode c hc hl hlen hmem hsum
  have hipt : st.inplace = true := hip
  have hszv : sizeFn c st = ls.length := by simp [sizeFn, hdec, hipt]
  rw [hszv]
  unfold emptyFn
  rw [if_pos hipt, hl, hhead]
  cases ls with
  | nil => simp
  | cons l t =>
    simp only [List.headD_cons, List.length_cons]
    constructor
    · intro hbeq
      rw [beq_iff_eq] at hbeq
      have hlB := hmem l (List.mem_cons_self l t)
      have hBm := hc.2.2.1
      omega
    · intro hzero
      exact absurd hzero (by omega)

/-- C10 witness: the amended theorem on the freshly constructed empty SSV
(both sides true). -/
theorem C10_empty_amended_witness :
    emptyFn dflt (emptySsv dflt) = true ↔ sizeFn dflt (emptySsv dflt) = 0 :=
  C10_empty_amended dflt dflt_valid Reach.init rfl

end SSV
